import Mathlib

/-!
Shallow embedding of the core of the `crep` history-aware code-search engine,
translated from the Rust sources, together with theorems checking the
natural-language specification against the code.

Conventions used throughout:
* Machine integers (`u32`, `usize`) are modelled as `Nat`; all arithmetic in
  the embedded code stays well below any overflow boundary, and `usize`
  subtraction is modelled as truncated `Nat` subtraction exactly where the
  source subtracts.
* `RoaringBitmap` values are modelled as `Finset ℕ` (the set of set bits);
  iteration over a bitmap visits its elements in ascending order, which is
  modelled by `Finset.sort (· ≤ ·)`.
* Rust functions that can panic are modelled in the `Option` monad, with
  `none` standing for a panic; functions returning `Result` are modelled with
  `Option`/`Except` as appropriate.
* Byte strings are modelled as `List ℕ` (each entry a byte value).
-/

/-! ### Bitmap primitives (`crep-indexer/src/util/bitmap/utils.rs`) -/

/-- The bitmap type: set of set bits of a `RoaringBitmap`. -/
abbrev Bitmap := Finset ℕ

/-- `intersect_bitmaps` from `util/bitmap/utils.rs`: `None` on an empty input
slice, otherwise the fold of `&=` over the list. -/
def intersect_bitmaps (bitmaps : List Bitmap) : Option Bitmap :=
  match bitmaps with
  | [] => none
  | first :: rest => some (rest.foldl (fun total b => total ∩ b) first)

/-- `intersect_bitmap_vec` from `util/bitmap/utils.rs`: pops the last element
as the accumulator and intersects the remaining bitmaps in order (the early
exit on an empty accumulator only short-circuits the computation and does not
change the result). -/
def intersect_bitmap_vec (bitmaps : List Bitmap) : Option Bitmap :=
  match bitmaps.getLast? with
  | none => none
  | some last => some (bitmaps.dropLast.foldl (fun acc b => acc ∩ b) last)

/-- `union_bitmaps` from `util/bitmap/utils.rs`: `None` on an empty input
slice, otherwise the fold of `|=` over the list. -/
def union_bitmaps (bitmaps : List Bitmap) : Option Bitmap :=
  match bitmaps with
  | [] => none
  | first :: rest => some (rest.foldl (fun total b => total ∪ b) first)

/-! ### Binary filter (`crep-indexer/src/index/check_binary.rs`) -/

/-- A magic-number signature: expected bytes at a fixed offset. -/
structure Signature where
  offset : ℕ
  bytes : List ℕ
  deriving Repr, DecidableEq

/-- The `EXT_MAGIC` table from `check_binary.rs`, byte for byte. -/
def EXT_MAGIC : List (String × List Signature) :=
  [ ("png", [⟨0, [0x89, 0x50, 0x4E, 0x47, 0x0D, 0x0A, 0x1A, 0x0A]⟩]),
    ("jpg", [⟨0, [0xFF, 0xD8, 0xFF]⟩]),
    ("jpeg", [⟨0, [0xFF, 0xD8, 0xFF]⟩]),
    ("gif", [⟨0, [0x47, 0x49, 0x46, 0x38, 0x37, 0x61]⟩,
             ⟨0, [0x47, 0x49, 0x46, 0x38, 0x39, 0x61]⟩]),
    ("bmp", [⟨0, [0x42, 0x4D]⟩]),
    ("tif", [⟨0, [0x49, 0x49, 0x2A, 0x00]⟩, ⟨0, [0x4D, 0x4D, 0x00, 0x2A]⟩]),
    ("tiff", [⟨0, [0x49, 0x49, 0x2A, 0x00]⟩, ⟨0, [0x4D, 0x4D, 0x00, 0x2A]⟩]),
    ("ico", [⟨0, [0x00, 0x00, 0x01, 0x00]⟩]),
    ("webp", [⟨0, [0x52, 0x49, 0x46, 0x46]⟩, ⟨8, [0x57, 0x45, 0x42, 0x50]⟩]),
    ("elf", [⟨0, [0x7F, 0x45, 0x4C, 0x46]⟩]),
    ("so", [⟨0, [0x7F, 0x45, 0x4C, 0x46]⟩]),
    ("o", [⟨0, [0x7F, 0x45, 0x4C, 0x46]⟩]),
    ("exe", [⟨0, [0x4D, 0x5A]⟩]),
    ("dll", [⟨0, [0x4D, 0x5A]⟩]),
    ("sys", [⟨0, [0x4D, 0x5A]⟩]),
    ("zip", [⟨0, [0x50, 0x4B, 0x03, 0x04]⟩, ⟨0, [0x50, 0x4B, 0x05, 0x06]⟩,
             ⟨0, [0x50, 0x4B, 0x07, 0x08]⟩]),
    ("jar", [⟨0, [0x50, 0x4B, 0x03, 0x04]⟩]),
    ("apk", [⟨0, [0x50, 0x4B, 0x03, 0x04]⟩]),
    ("docx", [⟨0, [0x50, 0x4B, 0x03, 0x04]⟩]),
    ("xlsx", [⟨0, [0x50, 0x4B, 0x03, 0x04]⟩]),
    ("pptx", [⟨0, [0x50, 0x4B, 0x03, 0x04]⟩]),
    ("gz", [⟨0, [0x1F, 0x8B]⟩]),
    ("bz2", [⟨0, [0x42, 0x5A, 0x68]⟩]),
    ("7z", [⟨0, [0x37, 0x7A, 0xBC, 0xAF, 0x27, 0x1C]⟩]),
    ("rar", [⟨0, [0x52, 0x61, 0x72, 0x21, 0x1A, 0x07, 0x00]⟩,
             ⟨0, [0x52, 0x61, 0x72, 0x21, 0x1A, 0x07, 0x01, 0x00]⟩]),
    ("xz", [⟨0, [0xFD, 0x37, 0x7A, 0x58, 0x5A, 0x00]⟩]),
    ("wav", [⟨0, [0x52, 0x49, 0x46, 0x46]⟩, ⟨8, [0x57, 0x41, 0x56, 0x45]⟩]),
    ("avi", [⟨0, [0x52, 0x49, 0x46, 0x46]⟩, ⟨8, [0x41, 0x56, 0x49, 0x20]⟩]),
    ("ogg", [⟨0, [0x4F, 0x67, 0x67, 0x53]⟩]),
    ("opus", [⟨0, [0x4F, 0x67, 0x67, 0x53]⟩]),
    ("ogv", [⟨0, [0x4F, 0x67, 0x67, 0x53]⟩]),
    ("mp3", [⟨0, [0x49, 0x44, 0x33]⟩, ⟨0, [0xFF, 0xFB]⟩, ⟨0, [0xFF, 0xF3]⟩,
             ⟨0, [0xFF, 0xF2]⟩]),
    ("mp4", [⟨4, [0x66, 0x74, 0x79, 0x70]⟩]),
    ("mov", [⟨4, [0x66, 0x74, 0x79, 0x70]⟩]),
    ("3gp", [⟨4, [0x66, 0x74, 0x79, 0x70]⟩]),
    ("3g2", [⟨4, [0x66, 0x74, 0x79, 0x70]⟩]),
    ("m4a", [⟨4, [0x66, 0x74, 0x79, 0x70]⟩]),
    ("mkv", [⟨0, [0x1A, 0x45, 0xDF, 0xA3]⟩]),
    ("webm", [⟨0, [0x1A, 0x45, 0xDF, 0xA3]⟩]),
    ("pdf", [⟨0, [0x25, 0x50, 0x44, 0x46]⟩]),
    ("ps", [⟨0, [0x25, 0x21, 0x50, 0x53]⟩]),
    ("rtf", [⟨0, [0x7b, 0x5C, 0x72, 0x74, 0x66]⟩]),
    ("doc", [⟨0, [0xD0, 0xCF, 0x11, 0xE0, 0xA1, 0xB1, 0x1A, 0xE1]⟩]),
    ("xls", [⟨0, [0xD0, 0xCF, 0x11, 0xE0, 0xA1, 0xB1, 0x1A, 0xE1]⟩]),
    ("ppt", [⟨0, [0xD0, 0xCF, 0x11, 0xE0, 0xA1, 0xB1, 0x1A, 0xE1]⟩]),
    ("class", [⟨0, [0xCA, 0xFE, 0xBA, 0xBE]⟩]),
    ("wasm", [⟨0, [0x00, 0x61, 0x73, 0x6D]⟩]) ]

/-- The `BYTE_ORDER_MARKS` patterns (UTF-8 BOM, UTF-16 BE BOM, UTF-16 LE BOM). -/
def BYTE_ORDER_MARKS : List (List ℕ) :=
  [[0xEF, 0xBB, 0xBF], [0xFE, 0xFF], [0xFF, 0xFE]]

/-- Whether `pat` occurs as a contiguous subsequence of `hay` (the
Aho-Corasick `find` of `check_binary.rs` reports any such occurrence). -/
def occursIn (hay pat : List ℕ) : Bool :=
  (List.range (hay.length + 1)).any fun i => (hay.drop i).take pat.length == pat

/-- `Utf8FileChecker::check_magic`: true when the extension has signatures and
one of them matches the content at its offset (signatures longer than the
content are skipped). -/
def check_magic (content : List ℕ) (file_ext : String) : Bool :=
  match (EXT_MAGIC.find? (fun p => p.1 == file_ext)).map Prod.snd with
  | some signatures =>
      signatures.any fun s =>
        decide (s.bytes.length + s.offset ≤ content.length) &&
          ((content.drop s.offset).take s.bytes.length == s.bytes)
  | none => false

/-- `NUM_BYTES_TO_CHECK` (8 KiB). -/
def NUM_BYTES_TO_CHECK : ℕ := 1024 * 8

/-- `Utf8FileChecker::is_utf8_document`, exactly as written in
`check_binary.rs`: a magic-number match returns `true`, otherwise the result
is the absence of any byte-order mark in the first 8 KiB. -/
def is_utf8_document (content : List ℕ) (file_ext : String) : Bool :=
  if check_magic content file_ext then true
  else !(BYTE_ORDER_MARKS.any fun pat =>
    occursIn (content.take (min NUM_BYTES_TO_CHECK content.length)) pat)

/-- The eight-byte PNG magic number, the standard first bytes of every PNG
file. -/
def pngHeaderBytes : List ℕ := [0x89, 0x50, 0x4E, 0x47, 0x0D, 0x0A, 0x1A, 0x0A]

/-! ### Theorems for claim C4 -/

/-- C4: the claim states that a blob whose extension is in the signature table
and whose content matches a signature is rejected (`is_utf8_document` returns
`false`).  The code does the opposite: on a magic-number match it returns
`true`, accepting the binary blob as text, while the BOM clause behaves as
described.  Evaluating the code at the failing input: a PNG header with
extension `"png"` matches the `"png"` signature, yet `is_utf8_document`
returns `true`. -/
theorem c4_magic_match_accepts_binary :
    check_magic pngHeaderBytes "png" = true ∧
      is_utf8_document pngHeaderBytes "png" = true := by
  constructor <;> rfl

/-! ### Trigram key (`trigram-hash/src/trigram_hash.rs`)

`TrigramKey` packs up to 12 bytes of UTF-8 payload, a length byte and three
zero padding bytes into 16 bytes, compared as a single 128-bit word.  The
struct layout is `[bytes[0..12], len, 0, 0, 0]`; on the (little-endian)
target, `as_u128` reads these 16 bytes as a little-endian integer, so byte 0
of the struct is the least significant byte of the word. -/

/-- `TrigramKey`: the 12 payload bytes (zero padded) and the length byte. -/
structure TrigramKey where
  bytes : List ℕ
  len : ℕ
  deriving Repr, DecidableEq

/-- `TrigramKey::from_utf8`: copies the string's bytes into a zeroed 12-byte
buffer and records the length. -/
def TrigramKey.from_utf8 (s : List ℕ) : TrigramKey :=
  { bytes := s ++ List.replicate (12 - s.length) 0, len := s.length }

/-- Little-endian value of a byte list (byte 0 least significant). -/
def leVal (L : List ℕ) : ℕ := L.foldr (fun b acc => b + 256 * acc) 0

/-- Big-endian value of a byte list (byte 0 most significant). -/
def beVal (L : List ℕ) : ℕ := L.foldl (fun acc b => acc * 256 + b) 0

/-- `TrigramKey::as_u128`: the 16 struct bytes
`bytes[0..12], len, 0, 0, 0` read as a little-endian 128-bit word
(the transmute on the little-endian target). -/
def TrigramKey.as_u128 (k : TrigramKey) : ℕ := leVal (k.bytes ++ [k.len, 0, 0, 0])

/-- Byte `i` (little-endian position) of a natural number. -/
def byteAt (v i : ℕ) : ℕ := v / 256 ^ i % 256

/-- `u128::swap_bytes`: reverses the 16 bytes of the word. -/
def swapBytes128 (v : ℕ) : ℕ :=
  ((List.range 16).map (fun i => byteAt v i * 256 ^ (15 - i))).sum

/-- The `PartialEq` implementation of `TrigramKey`: equality of `as_u128`. -/
def TrigramKey.beq (a b : TrigramKey) : Prop := a.as_u128 = b.as_u128

/-- The `Ord` implementation of `TrigramKey`, restricted to `Less`:
byte-swapped words compared as integers. -/
def TrigramKey.lt (a b : TrigramKey) : Prop :=
  swapBytes128 a.as_u128 < swapBytes128 b.as_u128

/-- The 16 struct bytes of `from_utf8 s`, in memory order. -/
def keyLayout (s : List ℕ) : List ℕ :=
  (s ++ List.replicate (12 - s.length) 0) ++ [s.length, 0, 0, 0]

theorem as_u128_from_utf8 (s : List ℕ) :
    (TrigramKey.from_utf8 s).as_u128 = leVal (keyLayout s) := rfl

theorem leVal_cons (x : ℕ) (L : List ℕ) : leVal (x :: L) = x + 256 * leVal L := rfl

theorem leVal_lt (L : List ℕ) (h : ∀ x ∈ L, x < 256) : leVal L < 256 ^ L.length := by
  induction L with
  | nil => simp [leVal]
  | cons x r ih =>
      have hx : x < 256 := h x (by simp)
      have hr : leVal r < 256 ^ r.length := ih (fun y hy => h y (by simp [hy]))
      rw [leVal_cons]
      calc x + 256 * leVal r < 256 + 256 * leVal r := by omega
        _ = 256 * (1 + leVal r) := by ring
        _ ≤ 256 * 256 ^ r.length := by
              have : 1 + leVal r ≤ 256 ^ r.length := by omega
              exact Nat.mul_le_mul_left _ this
        _ = 256 ^ (x :: r).length := by
              simp [List.length_cons, pow_succ]; ring

theorem byteAt_leVal (L : List ℕ) (h : ∀ x ∈ L, x < 256) :
    ∀ i, byteAt (leVal L) i = L.getD i 0 := by
  induction L with
  | nil => intro i; simp [leVal, byteAt]
  | cons x r ih =>
      intro i
      have hx : x < 256 := h x (by simp)
      have hr : ∀ y ∈ r, y < 256 := fun y hy => h y (by simp [hy])
      cases i with
      | zero =>
          simp only [byteAt, pow_zero, Nat.div_one, leVal_cons, List.getD]
          simp [Nat.add_mul_mod_self_left, Nat.mod_eq_of_lt hx]
      | succ i =>
          have : leVal (x :: r) / 256 ^ (i + 1) = leVal r / 256 ^ i := by
            rw [leVal_cons, pow_succ, mul_comm (256 ^ i) 256,
              ← Nat.div_div_eq_div_mul]
            congr 1
            rw [Nat.add_mul_div_left x (leVal r) (by norm_num),
              Nat.div_eq_of_lt hx, zero_add]
          simp only [byteAt, this, List.getD]
          exact ih hr i

theorem beVal_cons (x : ℕ) (L : List ℕ) :
    beVal (x :: L) = x * 256 ^ L.length + beVal L := by
  have aux : ∀ (M : List ℕ) (a : ℕ),
      M.foldl (fun acc b => acc * 256 + b) a =
        a * 256 ^ M.length + M.foldl (fun acc b => acc * 256 + b) 0 := by
    intro M
    induction M with
    | nil => intro a; simp
    | cons y r ih =>
        intro a
        simp only [List.foldl_cons]
        rw [ih (a * 256 + y), ih (0 * 256 + y)]
        simp [List.length_cons, pow_succ]
        ring
  simp only [beVal, List.foldl_cons]
  rw [aux L (0 * 256 + x)]
  simp

theorem beVal_lt (L : List ℕ) (h : ∀ x ∈ L, x < 256) : beVal L < 256 ^ L.length := by
  induction L with
  | nil => simp [beVal]
  | cons x r ih =>
      have hx : x < 256 := h x (by simp)
      have hr : beVal r < 256 ^ r.length := ih (fun y hy => h y (by simp [hy]))
      rw [beVal_cons]
      calc x * 256 ^ r.length + beVal r
          < x * 256 ^ r.length + 256 ^ r.length := by omega
        _ = (x + 1) * 256 ^ r.length := by ring
        _ ≤ 256 * 256 ^ r.length := Nat.mul_le_mul_right _ (by omega)
        _ = 256 ^ (x :: r).length := by simp [List.length_cons, pow_succ]; ring

theorem swapSum_eq_beVal (L : List ℕ) (h : ∀ x ∈ L, x < 256) :
    ∀ n, L.length = n →
      ((List.range n).map (fun i => byteAt (leVal L) i * 256 ^ (n - 1 - i))).sum =
        beVal L := by
  induction L with
  | nil =>
      intro n hn
      subst hn
      simp [beVal]
  | cons x r ih =>
      intro n hn
      have hx : x < 256 := h x (by simp)
      have hr : ∀ y ∈ r, y < 256 := fun y hy => h y (by simp [hy])
      rcases n with _ | m
      · simp at hn
      have hm : r.length = m := by simpa using hn
      rw [List.range_succ_eq_map, List.map_cons, List.map_map, List.sum_cons]
      have hb0 : byteAt (leVal (x :: r)) 0 = x := by
        have := byteAt_leVal (x :: r) h 0
        simpa using this
      have hstep : ∀ i, byteAt (leVal (x :: r)) (i + 1) = byteAt (leVal r) i := by
        intro i
        rw [byteAt_leVal (x :: r) h (i + 1), byteAt_leVal r hr i]
        rfl
      have hmap :
          (List.range m).map
              ((fun i => byteAt (leVal (x :: r)) i * 256 ^ (m + 1 - 1 - i)) ∘ Nat.succ) =
            (List.range m).map (fun i => byteAt (leVal r) i * 256 ^ (m - 1 - i)) := by
        apply List.map_congr_left
        intro i hi
        simp only [Function.comp]
        rw [hstep i]
        congr 2
        omega
      rw [hmap, ih hr m hm, beVal_cons, hb0]
      have hpow : m + 1 - 1 - 0 = r.length := by omega
      rw [hpow]

theorem swapBytes128_leVal (L : List ℕ) (h : ∀ x ∈ L, x < 256)
    (hlen : L.length = 16) : swapBytes128 (leVal L) = beVal L := by
  have := swapSum_eq_beVal L h 16 hlen
  simpa [swapBytes128] using this

theorem beVal_lt_iff_lex (L1 L2 : List ℕ) (hlen : L1.length = L2.length)
    (h1 : ∀ x ∈ L1, x < 256) (h2 : ∀ x ∈ L2, x < 256) :
    beVal L1 < beVal L2 ↔ List.Lex (· < ·) L1 L2 := by
  induction L1 generalizing L2 with
  | nil =>
      cases L2 with
      | nil =>
          constructor
          · intro h; omega
          · intro h; cases h
      | cons y r2 => simp at hlen
  | cons x r1 ih =>
      cases L2 with
      | nil => simp at hlen
      | cons y r2 =>
          have hlen' : r1.length = r2.length := by simpa using hlen
          have hx : x < 256 := h1 x (by simp)
          have hy : y < 256 := h2 y (by simp)
          have hr1 : ∀ a ∈ r1, a < 256 := fun a ha => h1 a (by simp [ha])
          have hr2 : ∀ a ∈ r2, a < 256 := fun a ha => h2 a (by simp [ha])
          have hb1 : beVal r1 < 256 ^ r1.length := beVal_lt r1 hr1
          have hb2 : beVal r2 < 256 ^ r2.length := beVal_lt r2 hr2
          rw [beVal_cons, beVal_cons, hlen']
          rw [hlen'] at hb1
          constructor
          · intro hlt
            rcases Nat.lt_trichotomy x y with hxy | hxy | hxy
            · exact List.Lex.rel hxy
            · subst hxy
              have : beVal r1 < beVal r2 := by omega
              exact List.Lex.cons ((ih r2 hlen' hr1 hr2).mp this)
            · exfalso
              have hstep : y * 256 ^ r2.length + 256 ^ r2.length ≤ x * 256 ^ r2.length := by
                have : (y + 1) * 256 ^ r2.length ≤ x * 256 ^ r2.length :=
                  Nat.mul_le_mul_right _ (by omega)
                calc y * 256 ^ r2.length + 256 ^ r2.length
                    = (y + 1) * 256 ^ r2.length := by ring
                  _ ≤ x * 256 ^ r2.length := this
              omega
          · intro hlex
            cases hlex with
            | rel hxy =>
                have hstep : x * 256 ^ r2.length + 256 ^ r2.length ≤ y * 256 ^ r2.length := by
                  have : (x + 1) * 256 ^ r2.length ≤ y * 256 ^ r2.length :=
                    Nat.mul_le_mul_right _ (by omega)
                  calc x * 256 ^ r2.length + 256 ^ r2.length
                      = (x + 1) * 256 ^ r2.length := by ring
                    _ ≤ y * 256 ^ r2.length := this
                omega
            | cons htail =>
                have : beVal r1 < beVal r2 := (ih r2 hlen' hr1 hr2).mpr htail
                omega

theorem lexNat_irrefl (a : List ℕ) : ¬ List.Lex (· < ·) a a := by
  induction a with
  | nil => intro h; cases h
  | cons x r ih =>
      intro h
      cases h with
      | rel hxy => omega
      | cons htail => exact ih htail

theorem lexNat_asymm : ∀ a b : List ℕ,
    List.Lex (· < ·) a b → List.Lex (· < ·) b a → False := by
  intro a
  induction a with
  | nil =>
      intro b h1 h2
      cases h1
      cases h2
  | cons x r ih =>
      intro b h1 h2
      cases b with
      | nil => cases h1
      | cons y s =>
          cases h1 with
          | rel hxy =>
              cases h2 with
              | rel hyx => omega
              | cons h => omega
          | cons h1' =>
              cases h2 with
              | rel hyx => omega
              | cons h2' => exact ih s h1' h2'

theorem lexNat_trichot : ∀ a b : List ℕ,
    List.Lex (· < ·) a b ∨ a = b ∨ List.Lex (· < ·) b a := by
  intro a
  induction a with
  | nil =>
      intro b
      cases b with
      | nil => exact Or.inr (Or.inl rfl)
      | cons y s => exact Or.inl (List.Lex.nil)
  | cons x r ih =>
      intro b
      cases b with
      | nil => exact Or.inr (Or.inr (List.Lex.nil))
      | cons y s =>
          rcases Nat.lt_trichotomy x y with hxy | hxy | hxy
          · exact Or.inl (List.Lex.rel hxy)
          · subst hxy
            rcases ih s with h | h | h
            · exact Or.inl (List.Lex.cons h)
            · subst h; exact Or.inr (Or.inl rfl)
            · exact Or.inr (Or.inr (List.Lex.cons h))
          · exact Or.inr (Or.inr (List.Lex.rel hxy))

theorem lex_middle (r : List ℕ) (la lb : ℕ) (t : List ℕ) (h : la < lb) :
    List.Lex (· < ·) (r ++ la :: t) (r ++ lb :: t) := by
  induction r with
  | nil => exact List.Lex.rel h
  | cons z zs ih => exact List.Lex.cons ih

theorem lex_zeros (ys : List ℕ) :
    ∀ k la lb (t : List ℕ), ys.length ≤ k → la < lb →
      List.Lex (· < ·) (List.replicate k 0 ++ la :: t)
        (ys ++ List.replicate (k - ys.length) 0 ++ lb :: t) := by
  induction ys with
  | nil =>
      intro k la lb t _ hlt
      simpa using lex_middle (List.replicate k 0) la lb t hlt
  | cons z zs ih =>
      intro k la lb t hk hlt
      rcases k with _ | k'
      · simp at hk
      have hk' : zs.length ≤ k' := by simpa using hk
      have e1 : List.replicate (k' + 1) (0 : ℕ) ++ la :: t =
          0 :: (List.replicate k' 0 ++ la :: t) := by
        simp [List.replicate_succ]
      rcases Nat.eq_zero_or_pos z with hz | hz
      · subst hz
        rw [e1]
        have e2 : (0 :: zs) ++ List.replicate (k' + 1 - (0 :: zs).length) 0 ++ lb :: t =
            0 :: (zs ++ List.replicate (k' - zs.length) 0 ++ lb :: t) := by
          simp [List.length_cons]
        rw [e2]
        exact List.Lex.cons (ih k' la lb t hk' hlt)
      · rw [e1]
        exact List.Lex.rel hz

theorem lex_pad {a b : List ℕ} (hab : List.Lex (· < ·) a b) :
    ∀ k la lb (t : List ℕ), a.length ≤ k → b.length ≤ k →
      la + b.length = lb + a.length →
      List.Lex (· < ·) (a ++ List.replicate (k - a.length) 0 ++ la :: t)
        (b ++ List.replicate (k - b.length) 0 ++ lb :: t) := by
  induction hab with
  | @nil y ys =>
      intro k la lb t _ hb hbal
      have hlt : la < lb := by simp at hbal; omega
      simpa using lex_zeros (y :: ys) k la lb t hb hlt
  | @rel x r1 y r2 hxy =>
      intro k la lb t _ _ _
      exact List.Lex.rel hxy
  | @cons x r1 r2 htail ih =>
      intro k la lb t ha hb hbal
      rcases k with _ | k'
      · simp at ha
      have ha' : r1.length ≤ k' := by simpa using ha
      have hb' : r2.length ≤ k' := by simpa using hb
      have hbal' : la + r2.length = lb + r1.length := by
        simp at hbal; omega
      have e1 : (x :: r1) ++ List.replicate (k' + 1 - (x :: r1).length) 0 ++ la :: t =
          x :: (r1 ++ List.replicate (k' - r1.length) 0 ++ la :: t) := by
        simp [List.length_cons]
      have e2 : (x :: r2) ++ List.replicate (k' + 1 - (x :: r2).length) 0 ++ lb :: t =
          x :: (r2 ++ List.replicate (k' - r2.length) 0 ++ lb :: t) := by
        simp [List.length_cons]
      rw [e1, e2]
      exact List.Lex.cons (ih k' la lb t ha' hb' hbal')

theorem keyLayout_length (s : List ℕ) (h : s.length ≤ 12) :
    (keyLayout s).length = 16 := by
  simp [keyLayout]
  omega

theorem keyLayout_bytes (s : List ℕ) (h12 : s.length ≤ 12)
    (h : ∀ x ∈ s, x < 256) : ∀ x ∈ keyLayout s, x < 256 := by
  intro x hx
  unfold keyLayout at hx
  rcases List.mem_append.mp hx with h1 | h2
  · rcases List.mem_append.mp h1 with ha | hrep
    · exact h x ha
    · have := List.eq_of_mem_replicate hrep
      omega
  · simp at h2
    rcases h2 with rfl | rfl
    · omega
    · omega

/-- `Lex` on the padded 16-byte layouts coincides with `Lex` on the strings
themselves (strings of at most 12 bytes). -/
theorem lex_keyLayout_iff (a b : List ℕ) (ha12 : a.length ≤ 12)
    (hb12 : b.length ≤ 12) :
    List.Lex (· < ·) (keyLayout a) (keyLayout b) ↔ List.Lex (· < ·) a b := by
  constructor
  · intro hlex
    rcases lexNat_trichot a b with h | h | h
    · exact h
    · subst h
      exact absurd hlex (lexNat_irrefl _)
    · have : List.Lex (· < ·) (keyLayout b) (keyLayout a) := by
        have := lex_pad h 12 b.length a.length [0, 0, 0] hb12 ha12 (by omega)
        simpa [keyLayout] using this
      exact absurd this (lexNat_asymm _ _ hlex)
  · intro hlex
    have := lex_pad hlex 12 a.length b.length [0, 0, 0] ha12 hb12 (by omega)
    simpa [keyLayout] using this

/-! ### Theorems for claim C9 -/

/-- C9: `TrigramKey::from_utf8` is an order embedding of byte strings (of at
most 12 bytes) into the key type: keys are equal (under the `PartialEq`
implementation, which compares `as_u128`) iff the strings are equal, and the
`Ord` comparison (the byte-swapped 128-bit words compared as integers) holds
iff the strings compare byte-lexicographically. -/
theorem c9_trigram_key_order_embedding (a b : List ℕ)
    (ha12 : a.length ≤ 12) (hb12 : b.length ≤ 12)
    (ha : ∀ x ∈ a, x < 256) (hb : ∀ x ∈ b, x < 256) :
    (TrigramKey.beq (TrigramKey.from_utf8 a) (TrigramKey.from_utf8 b) ↔ a = b) ∧
    (TrigramKey.lt (TrigramKey.from_utf8 a) (TrigramKey.from_utf8 b) ↔
      List.Lex (· < ·) a b) := by
  have layA := keyLayout_bytes a ha12 ha
  have layB := keyLayout_bytes b hb12 hb
  have lenA := keyLayout_length a ha12
  have lenB := keyLayout_length b hb12
  have hltAB : TrigramKey.lt (TrigramKey.from_utf8 a) (TrigramKey.from_utf8 b) ↔
      List.Lex (· < ·) a b := by
    unfold TrigramKey.lt
    rw [as_u128_from_utf8, as_u128_from_utf8,
      swapBytes128_leVal _ layA lenA, swapBytes128_leVal _ layB lenB,
      beVal_lt_iff_lex _ _ (by omega) layA layB]
    exact lex_keyLayout_iff a b ha12 hb12
  have hltBA : TrigramKey.lt (TrigramKey.from_utf8 b) (TrigramKey.from_utf8 a) ↔
      List.Lex (· < ·) b a := by
    unfold TrigramKey.lt
    rw [as_u128_from_utf8, as_u128_from_utf8,
      swapBytes128_leVal _ layB lenB, swapBytes128_leVal _ layA lenA,
      beVal_lt_iff_lex _ _ (by omega) layB layA]
    exact lex_keyLayout_iff b a hb12 ha12
  refine ⟨?_, hltAB⟩
  constructor
  · intro heq
    unfold TrigramKey.beq at heq
    rcases lexNat_trichot a b with h | h | h
    · exfalso
      have := hltAB.mpr h
      unfold TrigramKey.lt at this
      rw [heq] at this
      omega
    · exact h
    · exfalso
      have := hltBA.mpr h
      unfold TrigramKey.lt at this
      rw [heq] at this
      omega
  · intro h; subst h; rfl

/-- Witness for C9 at a concrete input: the keys of `"a"` (`[97]`) and
`"ab"` (`[97, 98]`) compare exactly as the strings do. -/
theorem c9_witness :
    ([97].length ≤ 12 ∧ ∀ x ∈ ([97] : List ℕ), x < 256) ∧
      (TrigramKey.lt (TrigramKey.from_utf8 [97]) (TrigramKey.from_utf8 [97, 98]) ↔
        List.Lex (· < ·) [97] [97, 98]) :=
  ⟨⟨by decide, by decide⟩,
    (c9_trigram_key_order_embedding [97] [97, 98] (by decide) (by decide)
      (by decide) (by decide)).2⟩

/-! ### Trigram tokenizer (`crep-indexer/src/tokenizer.rs` and
`trigram-hash/src/trigram_hash.rs`)

Lines are modelled as `List Char`.  The Rust code slices lines at byte
offsets of character boundaries; since the map from character position to
byte offset is strictly monotone and every slice starts and ends on a
boundary, slices are modelled by character positions.  The rolling
`indexes : [usize; 3]` array holds the positions of recent characters. -/

/-- The slice `line[s..e]` at character positions. -/
def sliceCC (line : List Char) (s e : ℕ) : List Char := (line.take e).drop s

/-- Read slot `i` (`i < 3`) of the `indexes` array. -/
def idxGet : ℕ × ℕ × ℕ → ℕ → ℕ
  | (a, _, _), 0 => a
  | (_, b, _), 1 => b
  | (_, _, c), _ => c

/-- Write slot `i` (`i < 3`) of the `indexes` array. -/
def idxSet : ℕ × ℕ × ℕ → ℕ → ℕ → ℕ × ℕ × ℕ
  | (_, b, c), 0, v => (v, b, c)
  | (a, _, c), 1, v => (a, v, c)
  | (a, b, _), _, v => (a, b, v)

/-- The loop of `split_by_trigram`: for each character (at iteration
`count`) read `start = indexes[(count + 1) % 3]`, emit it, then write
`indexes[count % 3] = count`.  Returns the list of `start` values in
iteration order. -/
def trigramStartsGo : ℕ → ℕ × ℕ × ℕ → List Char → List ℕ
  | _, _, [] => []
  | count, idxs, _ :: rest =>
      idxGet idxs ((count + 1) % 3) ::
        trigramStartsGo (count + 1) (idxSet idxs (count % 3) count) rest

/-- Start positions of the words emitted by `split_by_trigram` on a line. -/
def trigramStarts (line : List Char) : List ℕ := trigramStartsGo 0 (0, 0, 0) line

/-- `crep-indexer`'s `split_by_trigram`: every iteration of the loop inserts
the word `line[start..=count]`. -/
def crep_split_by_trigram (line : List Char) : List (List Char) :=
  (trigramStarts line).enum.map (fun p => sliceCC line p.2 (p.1 + 1))

/-- `trigram-hash`'s `split_by_trigram`: the words of iterations
`count < 2` are only buffered in `first_and_second`; words of iterations
`count ≥ 2` are inserted; after the loop, when `0 < total_count ≤ 2`, the
last buffered word (the whole line) is inserted. -/
def th_split_by_trigram (line : List Char) : List (List Char) :=
  let all := (trigramStarts line).enum.map (fun p => sliceCC line p.2 (p.1 + 1))
  let firstAndSecond := all.take 2
  let looped := all.drop 2
  looped ++
    (if line.length ≤ 2 ∧ 0 < line.length then
      (match firstAndSecond.getLast? with
       | some w => [w]
       | none => [])
    else [])

/-- One `word_pos.entry(word).or_default().insert(line_num)` pass over the
words emitted for a line; the map is modelled as a lookup function with
missing keys reading as the empty set. -/
def wordPosStep (tokenizer : List Char → List (List Char))
    (m : List Char → Finset ℕ) (lineNum : ℕ) (line : List Char) :
    List Char → Finset ℕ :=
  (tokenizer line).foldl
    (fun m w => fun t => if t = w then insert lineNum (m t) else m t) m

/-- The `for (line_num, line) in lines.iter().enumerate()` loop of
`split_lines_to_tokens`, carrying `line_num + line_start_index`. -/
def splitLinesGo (tokenizer : List Char → List (List Char))
    (m : List Char → Finset ℕ) (lineNum : ℕ) :
    List (List Char) → (List Char → Finset ℕ)
  | [] => m
  | line :: rest =>
      splitLinesGo tokenizer (wordPosStep tokenizer m lineNum line) (lineNum + 1) rest

/-- The `word_pos` map built by `split_lines_to_tokens` (for either
tokenizer), before the `BTreeSet → Vec` conversion. -/
def split_lines_word_pos (tokenizer : List Char → List (List Char))
    (lines : List (List Char)) (line_start_index : ℕ) : List Char → Finset ℕ :=
  splitLinesGo tokenizer (fun _ => ∅) line_start_index lines

/-- The final per-token value of `split_lines_to_tokens`: the `BTreeSet` of
line numbers converted to a (sorted, deduplicated) vector. -/
def split_lines_word_pos_vec (tokenizer : List Char → List (List Char))
    (lines : List (List Char)) (line_start_index : ℕ) (t : List Char) : List ℕ :=
  (split_lines_word_pos tokenizer lines line_start_index t).sort (· ≤ ·)

theorem trigramStartsGo_spec (rest : List Char) :
    ∀ (k : ℕ) (idxs : ℕ × ℕ × ℕ),
      idxGet idxs ((k + 1) % 3) = k - 2 →
      idxGet idxs ((k + 2) % 3) = k - 1 →
      trigramStartsGo k idxs rest = (List.range' k rest.length).map (· - 2) := by
  induction rest with
  | nil => intro k idxs _ _; simp [trigramStartsGo]
  | cons c rest ih =>
      intro k idxs h1 h2
      have hmod : k % 3 = 0 ∨ k % 3 = 1 ∨ k % 3 = 2 := by omega
      have hwrite : idxGet (idxSet idxs (k % 3) k) (k % 3) = k := by
        rcases hmod with h | h | h <;>
          (rw [h]; rcases idxs with ⟨a, b, c'⟩; rfl)
      have hkeep : ∀ s, s < 3 → s ≠ k % 3 →
          idxGet (idxSet idxs (k % 3) k) s = idxGet idxs s := by
        intro s hs hne
        rcases hmod with h | h | h <;>
          (rw [h] at hne ⊢; rcases idxs with ⟨a, b, c'⟩;
           interval_cases s <;> simp_all [idxGet, idxSet])
      have hnext1 : idxGet (idxSet idxs (k % 3) k) ((k + 2) % 3) = (k + 1) - 2 := by
        have hne : (k + 2) % 3 ≠ k % 3 := by omega
        rw [hkeep _ (by omega) hne, h2]
        omega
      have hnext2 : idxGet (idxSet idxs (k % 3) k) ((k + 3) % 3) = (k + 1) - 1 := by
        have he : (k + 3) % 3 = k % 3 := by omega
        rw [he, hwrite]
        omega
      simp only [trigramStartsGo, h1]
      rw [ih (k + 1) _ hnext1 hnext2]
      simp [List.range'_succ]

theorem trigramStarts_eq (line : List Char) :
    trigramStarts line = (List.range line.length).map (· - 2) := by
  rw [trigramStarts, trigramStartsGo_spec line 0 (0, 0, 0) rfl rfl,
    List.range_eq_range']

theorem crep_split_closed (line : List Char) :
    crep_split_by_trigram line =
      (List.range line.length).map (fun k => sliceCC line (k - 2) (k + 1)) := by
  unfold crep_split_by_trigram
  rw [trigramStarts_eq, List.enum_eq_zip_range]
  have hlen : ((List.range line.length).map (· - 2)).length = line.length := by
    simp
  rw [hlen]
  have hzip : (List.range line.length).zip ((List.range line.length).map (· - 2)) =
      (List.range line.length).map (fun k => (k, k - 2)) := by
    have := List.zip_map' (id : ℕ → ℕ) (· - 2) (List.range line.length)
    simpa using this
  rw [hzip, List.map_map]
  rfl

theorem crep_split_tokens (line : List Char) :
    crep_split_by_trigram line =
      (List.range (min line.length 2)).map (fun k => line.take (k + 1)) ++
        (List.range (line.length - 2)).map (fun i => sliceCC line i (i + 3)) := by
  rw [crep_split_closed]
  rcases Nat.lt_or_ge line.length 2 with h | h
  · interval_cases hn : line.length
    · simp
    · simp [sliceCC]
  · have hsplit : List.range line.length =
        List.range' 0 2 ++ List.range' 2 (line.length - 2) := by
      rw [List.range_eq_range']
      have := List.range'_append 0 2 (line.length - 2) 1
      simp at this
      rw [show line.length = line.length - 2 + 2 by omega] at *
      simpa using this.symm
    rw [hsplit, List.map_append]
    congr 1
    · have h2 : List.range' 0 2 = [0, 1] := rfl
      have hmin : min line.length 2 = 2 := by omega
      rw [h2, hmin]
      simp [List.range_succ, sliceCC]
    · rw [List.range'_eq_map_range, List.map_map]
      apply List.map_congr_left
      intro i _
      simp only [Function.comp]
      congr 1
      · omega
      · omega


theorem drop_two_range (n : ℕ) (h : 2 ≤ n) :
    (List.range n).drop 2 = List.range' 2 (n - 2) := by
  have hsplit : List.range n = List.range' 0 2 ++ List.range' 2 (n - 2) := by
    rw [List.range_eq_range']
    have happ := List.range'_append 0 2 (n - 2) 1
    simp only [one_mul, Nat.zero_add] at happ
    rw [show n = n - 2 + 2 by omega, happ.symm]
    congr 2
  rw [hsplit, List.drop_left' (by simp)]

theorem th_split_tokens (line : List Char) :
    th_split_by_trigram line =
      if line.length = 0 then []
      else if line.length ≤ 2 then [line]
      else (List.range (line.length - 2)).map (fun i => sliceCC line i (i + 3)) := by
  have hall : (trigramStarts line).enum.map (fun p => sliceCC line p.2 (p.1 + 1)) =
      (List.range line.length).map (fun k => sliceCC line (k - 2) (k + 1)) :=
    crep_split_closed line
  unfold th_split_by_trigram
  simp only [hall]
  rcases Nat.eq_zero_or_pos line.length with h0 | hpos
  · rw [h0]
    simp [List.length_eq_zero.mp h0]
  rcases Nat.lt_or_ge line.length 3 with hsm | hlg
  · have hdrop : ((List.range line.length).map
        (fun k => sliceCC line (k - 2) (k + 1))).drop 2 = [] := by
      apply List.drop_eq_nil_of_le
      simp
      omega
    have htake : ((List.range line.length).map
        (fun k => sliceCC line (k - 2) (k + 1))).take 2 =
          (List.range line.length).map (fun k => sliceCC line (k - 2) (k + 1)) := by
      apply List.take_of_length_le
      simp
      omega
    rw [hdrop, htake,
      if_pos (⟨(by omega : line.length ≤ 2), hpos⟩ :
        line.length ≤ 2 ∧ 0 < line.length)]
    have hne0 : line.length ≠ 0 := by omega
    rw [if_neg hne0, if_pos (by omega : line.length ≤ 2)]
    interval_cases hn : line.length
    · have hline : line.take 1 = line := by
        conv_lhs => rw [show (1 : ℕ) = line.length from hn.symm]
        exact List.take_length line
      simp [List.range_succ, sliceCC, hline]
    · have hline : line.take 2 = line := by
        conv_lhs => rw [show (2 : ℕ) = line.length from hn.symm]
        exact List.take_length line
      simp [List.range_succ, sliceCC, hline]
  · have hcond : ¬(line.length ≤ 2 ∧ 0 < line.length) := by omega
    rw [if_neg hcond]
    have hne0 : line.length ≠ 0 := by omega
    rw [if_neg hne0, if_neg (by omega : ¬ line.length ≤ 2)]
    rw [← List.map_drop, drop_two_range _ (by omega), List.range'_eq_map_range,
      List.map_map, List.append_nil]
    apply List.map_congr_left
    intro i _
    simp only [Function.comp]
    congr 1
    · omega
    · omega

theorem wordPosStep_spec (tokenizer : List Char → List (List Char))
    (m : List Char → Finset ℕ) (lineNum : ℕ) (line : List Char) (t : List Char) :
    wordPosStep tokenizer m lineNum line t =
      if t ∈ tokenizer line then insert lineNum (m t) else m t := by
  unfold wordPosStep
  generalize tokenizer line = ws
  induction ws generalizing m with
  | nil => simp
  | cons w rest ih =>
      simp only [List.foldl_cons, ih, List.mem_cons]
      by_cases hw : t = w
      · subst hw
        by_cases hr : t ∈ rest <;> simp [hr, Finset.insert_idem]
      · by_cases hr : t ∈ rest <;> simp [hr, hw]

theorem splitLinesGo_spec (tokenizer : List Char → List (List Char)) :
    ∀ (lines : List (List Char)) (m : List Char → Finset ℕ) (lineNum : ℕ)
      (t : List Char) (j : ℕ),
      j ∈ splitLinesGo tokenizer m lineNum lines t ↔
        j ∈ m t ∨ ∃ i, i < lines.length ∧ j = lineNum + i ∧
          t ∈ tokenizer (lines.getD i []) := by
  intro lines
  induction lines with
  | nil =>
      intro m lineNum t j
      simp [splitLinesGo]
  | cons line rest ih =>
      intro m lineNum t j
      simp only [splitLinesGo]
      rw [ih]
      rw [wordPosStep_spec]
      constructor
      · rintro (hm | ⟨i, hi, rfl, htok⟩)
        · by_cases htok : t ∈ tokenizer line
          · rw [if_pos htok] at hm
            rcases Finset.mem_insert.mp hm with rfl | hm
            · exact Or.inr ⟨0, by simp, by omega, by simpa using htok⟩
            · exact Or.inl hm
          · rw [if_neg htok] at hm
            exact Or.inl hm
        · exact Or.inr ⟨i + 1, by simp; omega, by omega, by simpa using htok⟩
      · rintro (hm | ⟨i, hi, rfl, htok⟩)
        · refine Or.inl ?_
          by_cases h : t ∈ tokenizer line
          · rw [if_pos h]
            exact Finset.mem_insert_of_mem hm
          · rwa [if_neg h]
        · rcases i with _ | i'
          · refine Or.inl ?_
            simp only [List.getD_cons_zero] at htok
            rw [if_pos htok]
            simp
          · refine Or.inr ⟨i', by simp at hi; omega, by omega, ?_⟩
            simpa using htok

/-! ### Theorems for claim C5 -/

/-- C5 counterexample: the claim states that a line with three or more
characters emits *only* its 3-character sliding windows.  On the line
`"abcd"`, `crep-indexer`'s `Tokenizer::split_lines_to_tokens` with the
trigram method also emits the two-character prefix `"ab"` (mapped to line
`0`), refuting the claim as stated. -/
theorem c5_counterexample :
    (['a', 'b', 'c', 'd'] : List Char).length = 4 ∧
      split_lines_word_pos crep_split_by_trigram [['a', 'b', 'c', 'd']] 0
        ['a', 'b'] = {0} := by
  constructor
  · rfl
  · decide

/-- C5 (amended): `crep-indexer`'s trigram tokenizer emits, per line, the
length-1 and length-2 prefixes (as far as the line length allows) *and* every
3-character sliding window; `trigram-hash`'s tokenizer emits exactly one
whole-line token for non-empty lines of fewer than three characters and
exactly the 3-character sliding windows otherwise; for either tokenizer,
each token is mapped to the sorted, deduplicated set of (offset) line
numbers on which the tokenizer emits it. -/
theorem c5_trigram_tokenizer_amended :
    (∀ line : List Char,
        crep_split_by_trigram line =
          (List.range (min line.length 2)).map (fun k => line.take (k + 1)) ++
            (List.range (line.length - 2)).map (fun i => sliceCC line i (i + 3))) ∧
    (∀ line : List Char,
        th_split_by_trigram line =
          if line.length = 0 then []
          else if line.length ≤ 2 then [line]
          else (List.range (line.length - 2)).map (fun i => sliceCC line i (i + 3))) ∧
    (∀ (tokenizer : List Char → List (List Char)) (lines : List (List Char))
        (start : ℕ) (t : List Char),
        (∀ j, j ∈ split_lines_word_pos tokenizer lines start t ↔
          ∃ i, i < lines.length ∧ j = start + i ∧ t ∈ tokenizer (lines.getD i [])) ∧
        (split_lines_word_pos_vec tokenizer lines start t).Sorted (· ≤ ·) ∧
        (split_lines_word_pos_vec tokenizer lines start t).Nodup ∧
        (∀ j, j ∈ split_lines_word_pos_vec tokenizer lines start t ↔
          j ∈ split_lines_word_pos tokenizer lines start t)) := by
  refine ⟨crep_split_tokens, th_split_tokens, ?_⟩
  intro tokenizer lines start t
  refine ⟨?_, ?_, ?_, ?_⟩
  · intro j
    rw [split_lines_word_pos, splitLinesGo_spec]
    simp
  · exact Finset.sort_sorted _ _
  · exact Finset.sort_nodup _ _
  · intro j
    exact Finset.mem_sort _

/-! ### Permutation iterator (`crep-indexer/src/search/permutation.rs`)

`PermutationIterator::new(limit)` panics when a limit is zero; otherwise the
iterator counts through all index vectors `v` with `v[i] < limit[i]`, in
mixed-radix (odometer) order: it starts at the all-zero vector and each
`next` increments the rightmost incrementable position, zeroing everything to
its right.  That enumeration is exactly the lexicographically ordered list
below (pinned against the iterator's unit tests further down). -/

/-- All index vectors below the given limits, in the iterator's order. -/
def permList : List ℕ → List (List ℕ)
  | [] => [[]]
  | l :: rest => (List.range l).flatMap (fun v => (permList rest).map (v :: ·))

/-- `PermutationIterator::new` followed by collecting the iterator:
`none` models the panic on a zero limit. -/
def permutations (limits : List ℕ) : Option (List (List ℕ)) :=
  if limits.any (· == 0) then none else some (permList limits)

/-- The iterator's own unit tests, replayed against the model. -/
theorem permutations_matches_unit_tests :
    permutations [1, 2, 3] =
        some [[0, 0, 0], [0, 0, 1], [0, 0, 2], [0, 1, 0], [0, 1, 1], [0, 1, 2]] ∧
      permutations [1, 1, 1] = some [[0, 0, 0]] ∧
      permutations [2, 2, 2] =
        some [[0, 0, 0], [0, 0, 1], [0, 1, 0], [0, 1, 1],
              [1, 0, 0], [1, 0, 1], [1, 1, 0], [1, 1, 1]] := by
  refine ⟨?_, ?_, ?_⟩ <;> rfl

/-! ### Regex planner data (`crep-indexer/src/search/regex_search.rs`) -/

/-- `CharacterClass`: in the source enum, the only variant is a literal
character. -/
inductive CharacterClass where
  | Char (c : Char)
  deriving Repr, DecidableEq

/-- `Trigram`: an `ArrayVec<CharacterClass, 3>` of at most three character
classes (the capacity bound is maintained by every constructor in the
source). -/
structure Trigram where
  data : List CharacterClass
  deriving Repr, DecidableEq

/-- `Trigram::from_str` (and `Trigram::new`): one class per character. -/
def Trigram.ofChars (s : List Char) : Trigram :=
  { data := s.map CharacterClass.Char }

/-- `Trigram::to_string`. -/
def Trigram.toChars (t : Trigram) : List Char :=
  t.data.map (fun c => match c with | CharacterClass.Char c => c)

/-- `Trigram::from_long_string`: strings shorter than 3 bytes yield the
single short trigram; longer strings yield every 3-character sliding window
(the rolling-index loop is the same as the tokenizer's, restricted to
`count ≥ 2`). -/
def Trigram.from_long_string (s : List Char) : List Trigram :=
  if s.length < 3 then [Trigram.ofChars s]
  else (List.range (s.length - 2)).map (fun i => Trigram.ofChars (sliceCC s i (i + 3)))

/-- `Trigram::concat_small`: concatenation of two trigrams whose combined
length is at most 3 (`try_extend_from_slice`). -/
def Trigram.concat_small (left right : Trigram) : Trigram :=
  { data := left.data ++ right.data }

/-- `Trigram::concat`: all windows of three consecutive classes spanning the
two trigrams (`start ∈ 0 .. left.len + right.len − 3`, inclusive). -/
def Trigram.concat (left right : Trigram) : List Trigram :=
  (List.range (left.data.length + right.data.length - 2)).map
    (fun start => { data := ((left.data ++ right.data).drop start).take 3 })

/-- `merge_trigrams`: starts from the first conjunction, then repeatedly pops
the last merged trigram and fuses it with the head of the next conjunction
(`concat_small` when they fit in one trigram — asserting the next conjunction
is a singleton — otherwise `Trigram::concat` plus the tail).  `none` models
the panics (`trigrams[0]` on an empty slice, `pop().unwrap()`, `&trigram[0]`,
the `assert!`). -/
def merge_trigrams (trigrams : List (List Trigram)) : Option (List Trigram) :=
  match trigrams with
  | [] => none
  | first :: rest => go first rest
where
  go (merged : List Trigram) : List (List Trigram) → Option (List Trigram)
  | [] => some merged
  | trigram :: rest => do
      let left ← merged.getLast?
      let first_on_right ← trigram.head?
      if first_on_right.data.length ≤ 3 - left.data.length then
        if trigram.length = 1 then
          go (merged.dropLast ++ [Trigram.concat_small left first_on_right]) rest
        else none
      else
        go (merged.dropLast ++ Trigram.concat left first_on_right ++ trigram.drop 1)
          rest

/-- The unit tests of `merge_trigrams`, replayed against the model (a
selection covering both fusion branches and three-part merges). -/
theorem merge_trigrams_matches_unit_tests :
    merge_trigrams [[Trigram.ofChars ['a']], [Trigram.ofChars ['a']]] =
        some [Trigram.ofChars ['a', 'a']] ∧
      merge_trigrams [[Trigram.ofChars ['b', 'b']], [Trigram.ofChars ['c', 'c']]] =
        some [Trigram.ofChars ['b', 'b', 'c'], Trigram.ofChars ['b', 'c', 'c']] ∧
      merge_trigrams [[Trigram.ofChars ['d', 'd', 'd']], [Trigram.ofChars ['b', 'b']],
          [Trigram.ofChars ['a']]] =
        some [Trigram.ofChars ['d', 'd', 'd'], Trigram.ofChars ['d', 'd', 'b'],
          Trigram.ofChars ['d', 'b', 'b'], Trigram.ofChars ['b', 'b', 'a']] := by
  refine ⟨?_, ?_, ?_⟩ <;> rfl

/-- A `RoaringBitmap` in planner position: either a finite set of bits or
`RoaringBitmap::full()` (every `u32` bit set). -/
inductive RBitmap where
  | mk (s : Finset ℕ)
  | full
  deriving DecidableEq

/-- Bitmap intersection (`&=`) on planner bitmaps. -/
def RBitmap.inter : RBitmap → RBitmap → RBitmap
  | RBitmap.full, b => b
  | RBitmap.mk a, RBitmap.full => RBitmap.mk a
  | RBitmap.mk a, RBitmap.mk b => RBitmap.mk (a ∩ b)

/-- `intersect_bitmaps` at planner bitmaps: `None` on an empty slice. -/
def intersect_rbitmaps (bitmaps : List RBitmap) : Option RBitmap :=
  match bitmaps with
  | [] => none
  | first :: rest => some (rest.foldl RBitmap.inter first)

/-- `SearchPartTrigram`: one conjunctive group of the planner. -/
structure SearchPartTrigram where
  trigrams : List Trigram
  docs_to_check : RBitmap
  deriving DecidableEq

/-- `RegexSearchCandidates`: the disjunction of conjunctive groups. -/
structure RegexSearchCandidates where
  candidates : List SearchPartTrigram
  deriving DecidableEq

/-- `RegexSearchCandidates::repeat`: caps `min` and `max` at 3 (`max`
defaulting to 3 when absent), and for each repeat count `r` in the capped
range emits the merged `r`-fold products of the part's candidates;
`r == 0` contributes the single unfiltered wildcard part.  `none` models the
panics (zero permutation limits, `merge_trigrams`, `intersect_bitmaps` on an
empty list). -/
def RegexSearchCandidates.repeat (part : RegexSearchCandidates) (minr : ℕ)
    (maxr : Option ℕ) : Option RegexSearchCandidates := do
  let min_repeat_count := min minr 3
  let max_repeat_count := min (maxr.getD 3) 3
  let groups ← (List.range' min_repeat_count
      (max_repeat_count + 1 - min_repeat_count)).mapM (fun r =>
    if r = 0 then
      some [({ trigrams := [], docs_to_check := RBitmap.full } : SearchPartTrigram)]
    else do
      let perms ← permutations (List.replicate r part.candidates.length)
      perms.mapM (fun perm => do
        let picked ← perm.mapM (fun index => part.candidates.get? index)
        let merged ← merge_trigrams (picked.map SearchPartTrigram.trigrams)
        let docs ← intersect_rbitmaps (picked.map SearchPartTrigram.docs_to_check)
        pure ({ trigrams := merged, docs_to_check := docs } : SearchPartTrigram)))
  pure { candidates := groups.flatten }

/-- The planner part for the sub-pattern `a`: one candidate holding the
single one-character trigram `'a'` (docs bitmap `{1, 2, 3}` as in the
source's unit test). -/
def aCandidate : SearchPartTrigram :=
  { trigrams := [Trigram.ofChars ['a']], docs_to_check := RBitmap.mk {1, 2, 3} }

/-- The candidate set with `aCandidate` as its only disjunct. -/
def aPart : RegexSearchCandidates := { candidates := [aCandidate] }

/-- The wildcard part contributed by a repetition count of 0. -/
def wildcardPart : SearchPartTrigram :=
  { trigrams := [], docs_to_check := RBitmap.full }

/-! ### Theorems for claim C7 -/

/-- C7: `RegexSearchCandidates::repeat(part, min, max)` equals
`repeat(part, min(min,3), Some(min(max,3)))` with an absent `max` treated as
3; a repetition count of 0 contributes the single unconstrained
(empty-trigram, full-bitmap) candidate first; and for a part with a single
candidate holding the one-character trigram `'a'`, `repeat(part, 0, max)`
with `max ≥ 3` yields exactly the four disjuncts
`{empty, 'a', 'aa', 'aaa'}`. -/
theorem c7_repeat_caps_at_three :
    (∀ (part : RegexSearchCandidates) (minr : ℕ) (maxr : Option ℕ),
        RegexSearchCandidates.repeat part minr maxr =
          RegexSearchCandidates.repeat part (min minr 3)
            (some (min (maxr.getD 3) 3))) ∧
    (∀ (part : RegexSearchCandidates) (maxr : Option ℕ) (c : RegexSearchCandidates),
        RegexSearchCandidates.repeat part 0 maxr = some c →
          c.candidates.head? = some wildcardPart) ∧
    (∀ m : ℕ, 3 ≤ m →
        RegexSearchCandidates.repeat aPart 0 (some m) =
          some { candidates :=
            [wildcardPart,
             { trigrams := [Trigram.ofChars ['a']], docs_to_check := RBitmap.mk {1, 2, 3} },
             { trigrams := [Trigram.ofChars ['a', 'a']], docs_to_check := RBitmap.mk {1, 2, 3} },
             { trigrams := [Trigram.ofChars ['a', 'a', 'a']],
               docs_to_check := RBitmap.mk {1, 2, 3} }] }) := by
  have hcap : ∀ (part : RegexSearchCandidates) (minr : ℕ) (maxr : Option ℕ),
      RegexSearchCandidates.repeat part minr maxr =
        RegexSearchCandidates.repeat part (min minr 3)
          (some (min (maxr.getD 3) 3)) := by
    intro part minr maxr
    have h1 : min (min minr 3) 3 = min minr 3 := by omega
    have h2 : min ((some (min (maxr.getD 3) 3)).getD 3) 3 = min (maxr.getD 3) 3 := by
      simp only [Option.getD_some]
      omega
    simp only [RegexSearchCandidates.repeat, h1, h2]
  refine ⟨hcap, ?_, ?_⟩
  · intro part maxr c h
    simp only [RegexSearchCandidates.repeat, Nat.zero_min, Nat.sub_zero] at h
    rw [List.range'_succ, List.mapM_cons] at h
    simp only [reduceIte, Option.bind_eq_bind, Option.some_bind, Option.bind_assoc,
      Option.pure_def, Option.bind_eq_some, Option.some.injEq] at h
    obtain ⟨bs, _, heq⟩ := h
    subst heq
    simp [wildcardPart]
  · intro m hm
    rw [hcap aPart 0 (some m)]
    simp only [Option.getD_some]
    rw [show min m 3 = 3 by omega]
    decide

/-- Witness for C7: the capped-repetition example evaluated at the concrete
bound `max = 100`. -/
theorem c7_witness :
    (3 ≤ 100) ∧
      RegexSearchCandidates.repeat aPart 0 (some 100) =
        some { candidates :=
          [wildcardPart,
           { trigrams := [Trigram.ofChars ['a']], docs_to_check := RBitmap.mk {1, 2, 3} },
           { trigrams := [Trigram.ofChars ['a', 'a']], docs_to_check := RBitmap.mk {1, 2, 3} },
           { trigrams := [Trigram.ofChars ['a', 'a', 'a']],
             docs_to_check := RBitmap.mk {1, 2, 3} }] } :=
  ⟨by norm_num, c7_repeat_caps_at_three.2.2 100 (by norm_num)⟩

/-! ### Bitmap iteration

`RoaringBitmap` iteration visits the set bits in ascending order; `bmAscend`
realises that enumeration for the `Finset` model. -/

/-- The set bits of a bitmap, ascending (the `for x in &bitmap` order). -/
def bmAscend (s : Finset ℕ) : List ℕ :=
  (List.range (match s.max with | ⊥ => 0 | some n => n + 1)).filter (· ∈ s)

theorem mem_bmAscend (s : Finset ℕ) (j : ℕ) : j ∈ bmAscend s ↔ j ∈ s := by
  simp only [bmAscend, List.mem_filter, List.mem_range, decide_eq_true_eq]
  constructor
  · rintro ⟨_, h⟩; exact h
  · intro h
    refine ⟨?_, h⟩
    have hle := Finset.le_max h
    match hm : s.max with
    | ⊥ =>
        rw [hm] at hle
        exact absurd (le_bot_iff.mp hle) (WithBot.coe_ne_bot)
    | some n =>
        rw [hm] at hle
        have hjn : j ≤ n := WithBot.coe_le_coe.mp hle
        exact Nat.lt_succ_of_le hjn

theorem bmAscend_sorted (s : Finset ℕ) : (bmAscend s).Pairwise (· < ·) :=
  List.Pairwise.filter _ (List.pairwise_lt_range _)

/-! ### Result materialization
(`crep-indexer/src/search/result/search_result.rs`)

`SearchResult::new` re-checks a raw result's overlapped commits against the
actual blob content.  The repo reader and the semantic matcher (the external
`regex`/`aho-corasick` crates run by `SingleCommitSearchResult::new`) are
parameters: `reader` returns the blob (path and content of abstract type γ)
at a commit, or `none` when absent, or an error; `matcher` finds the
query's matches (abstract payload type μ) in a content, `none` when the
content has no match. -/

/-- `SingleCommitSearchResult`: the commit id together with the match payload
(`words_per_line`/`lines`). -/
structure SCSR (μ : Type) where
  commit_id : ℕ
  payload : μ
  deriving Repr, DecidableEq

/-- `SearchResult`: a materialized hit. -/
structure SearchResultHit (μ : Type) where
  file_path : String
  first_match : SCSR μ
  last_match : Option (SCSR μ)
  deriving Repr, DecidableEq

/-- `SearchResult::get_search_result_at_commit`: absent blobs yield
`("", None)`; present blobs run the matcher, keeping the commit id on a
match. -/
def get_search_result_at_commit {γ μ : Type}
    (reader : ℕ → Except String (Option (String × γ)))
    (matcher : γ → Except String (Option μ)) (commit_id : ℕ) :
    Except String (String × Option (SCSR μ)) := do
  let blob ← reader commit_id
  match blob with
  | none => pure ("", none)
  | some (path, content) => do
      let m ← matcher content
      pure (path, m.map (fun p => { commit_id := commit_id, payload := p }))

/-- The first loop of `SearchResult::new`: ascending over the overlapped
commits, stopping at the first commit whose re-check matches. -/
def srFindFirst {γ μ : Type} (reader : ℕ → Except String (Option (String × γ)))
    (matcher : γ → Except String (Option μ)) :
    List ℕ → Except String (Option (String × SCSR μ))
  | [] => pure none
  | c :: rest => do
      let (path, m) ← get_search_result_at_commit reader matcher c
      match m with
      | some fm => pure (some (path, fm))
      | none => srFindFirst reader matcher rest

/-- The second loop of `SearchResult::new`: descending over the overlapped
commits, breaking (without a result) at `commit_id ≤ first_commit_id`,
otherwise stopping at the first commit whose re-check matches. -/
def srFindLast {γ μ : Type} (reader : ℕ → Except String (Option (String × γ)))
    (matcher : γ → Except String (Option μ)) (first_commit_id : ℕ) :
    List ℕ → Except String (Option (SCSR μ))
  | [] => pure none
  | c :: rest =>
      if c ≤ first_commit_id then pure none
      else do
        let (_, m) ← get_search_result_at_commit reader matcher c
        match m with
        | some lm => pure (some lm)
        | none => srFindLast reader matcher first_commit_id rest

/-- `SearchResult::new`. -/
def SearchResult.new {γ μ : Type}
    (reader : ℕ → Except String (Option (String × γ)))
    (matcher : γ → Except String (Option μ)) (overlapped_commits : Finset ℕ) :
    Except String (Option (SearchResultHit μ)) := do
  let firstFound ← srFindFirst reader matcher (bmAscend overlapped_commits)
  match firstFound with
  | none => pure none
  | some (path, first) => do
      let last ← srFindLast reader matcher first.commit_id
        (bmAscend overlapped_commits).reverse
      pure (some { file_path := path, first_match := first, last_match := last })

/-- The semantic re-check succeeds at commit `c`: the blob is readable and
the matcher finds a match in it. -/
def recheckOk {γ μ : Type} (reader : ℕ → Except String (Option (String × γ)))
    (matcher : γ → Except String (Option μ)) (c : ℕ) : Prop :=
  ∃ path r, get_search_result_at_commit reader matcher c =
    Except.ok (path, some r)

/-- The semantic re-check completes without error but finds no match. -/
def recheckFails {γ μ : Type} (reader : ℕ → Except String (Option (String × γ)))
    (matcher : γ → Except String (Option μ)) (c : ℕ) : Prop :=
  ∃ path, get_search_result_at_commit reader matcher c =
    Except.ok (path, (none : Option (SCSR μ)))

theorem except_bind_ok {α β ε : Type} (a : α) (f : α → Except ε β) :
    (Except.ok a >>= f) = f a := rfl

theorem except_bind_error {α β ε : Type} (e : ε) (f : α → Except ε β) :
    ((Except.error e : Except ε α) >>= f) = Except.error e := rfl

theorem gsr_commit_id {γ μ : Type}
    (reader : ℕ → Except String (Option (String × γ)))
    (matcher : γ → Except String (Option μ)) (c : ℕ) (p : String) (r : SCSR μ)
    (h : get_search_result_at_commit reader matcher c = Except.ok (p, some r)) :
    r.commit_id = c := by
  unfold get_search_result_at_commit at h
  cases hr : reader c with
  | error e =>
      rw [hr, except_bind_error] at h
      exact absurd h (by intro hh; cases hh)
  | ok blob =>
      rw [hr, except_bind_ok] at h
      rcases blob with _ | ⟨path, content⟩
      · dsimp only at h
        simp [pure, Except.pure] at h
      · dsimp only at h
        cases hm : matcher content with
        | error e =>
            rw [hm, except_bind_error] at h
            exact absurd h (by intro hh; cases hh)
        | ok m =>
            rw [hm, except_bind_ok] at h
            rcases m with _ | payload
            · simp [pure, Except.pure] at h
            · simp only [Option.map_some', pure, Except.pure, Except.ok.injEq,
                Prod.mk.injEq, Option.some.injEq] at h
              rw [← h.2]

theorem srFindFirst_ok_some {γ μ : Type}
    (reader : ℕ → Except String (Option (String × γ)))
    (matcher : γ → Except String (Option μ)) :
    ∀ (l : List ℕ) (p : String) (fm : SCSR μ),
      l.Pairwise (· < ·) →
      srFindFirst reader matcher l = Except.ok (some (p, fm)) →
      fm.commit_id ∈ l ∧ recheckOk reader matcher fm.commit_id ∧
        ∀ c ∈ l, recheckOk reader matcher c → fm.commit_id ≤ c := by
  intro l
  induction l with
  | nil => intro p fm _ h; exact absurd h (by intro h; cases h)
  | cons c rest ih =>
      intro p fm hs h
      unfold srFindFirst at h
      cases hg : get_search_result_at_commit reader matcher c with
      | error e =>
          rw [hg, except_bind_error] at h
          exact absurd h (by intro h; cases h)
      | ok pm =>
          rw [hg, except_bind_ok] at h
          rcases pm with ⟨path, m⟩
          rcases m with _ | fm'
          · dsimp only at h
            have hrest := ih p fm (List.pairwise_cons.mp hs).2 h
            refine ⟨List.mem_cons_of_mem _ hrest.1, hrest.2.1, ?_⟩
            intro c' hc' hok
            rcases List.mem_cons.mp hc' with rfl | hc'
            · exfalso
              obtain ⟨path', r', hr'⟩ := hok
              rw [hg] at hr'
              cases hr'
            · exact hrest.2.2 c' hc' hok
          · dsimp only at h
            simp only [pure, Except.pure, Except.ok.injEq, Option.some.injEq,
              Prod.mk.injEq] at h
            obtain ⟨hp, hfm⟩ := h
            subst hp
            subst hfm
            have hcid : fm'.commit_id = c := gsr_commit_id _ _ _ _ _ hg
            refine ⟨by simp [hcid], ⟨path, fm', by rwa [hcid]⟩, ?_⟩
            intro c' hc' _
            rcases List.mem_cons.mp hc' with rfl | hc'
            · omega
            · have : c < c' := (List.pairwise_cons.mp hs).1 c' hc'
              omega

theorem srFindFirst_ok_none {γ μ : Type}
    (reader : ℕ → Except String (Option (String × γ)))
    (matcher : γ → Except String (Option μ)) :
    ∀ (l : List ℕ),
      srFindFirst reader matcher l = Except.ok none →
      ∀ c ∈ l, ¬ recheckOk reader matcher c := by
  intro l
  induction l with
  | nil => intro _ c hc; cases hc
  | cons c rest ih =>
      intro h c' hc'
      unfold srFindFirst at h
      cases hg : get_search_result_at_commit reader matcher c with
      | error e =>
          rw [hg, except_bind_error] at h
          exact absurd h (by intro h; cases h)
      | ok pm =>
          rw [hg, except_bind_ok] at h
          rcases pm with ⟨path, m⟩
          rcases m with _ | fm'
          · dsimp only at h
            rcases List.mem_cons.mp hc' with rfl | hc'
            · rintro ⟨path', r', hr'⟩
              rw [hg] at hr'
              cases hr'
            · exact ih h c' hc'
          · dsimp only at h
            simp [pure, Except.pure] at h

theorem srFindFirst_all_fail {γ μ : Type}
    (reader : ℕ → Except String (Option (String × γ)))
    (matcher : γ → Except String (Option μ)) :
    ∀ (l : List ℕ),
      (∀ c ∈ l, recheckFails reader matcher c) →
      srFindFirst reader matcher l = Except.ok none := by
  intro l
  induction l with
  | nil => intro _; rfl
  | cons c rest ih =>
      intro hall
      obtain ⟨path, hp⟩ := hall c (by simp)
      unfold srFindFirst
      rw [hp, except_bind_ok]
      exact ih (fun c' hc' => hall c' (List.mem_cons_of_mem _ hc'))

theorem srFindLast_ok_some {γ μ : Type}
    (reader : ℕ → Except String (Option (String × γ)))
    (matcher : γ → Except String (Option μ)) (firstId : ℕ) :
    ∀ (l : List ℕ) (lm : SCSR μ),
      l.Pairwise (· > ·) →
      srFindLast reader matcher firstId l = Except.ok (some lm) →
      lm.commit_id ∈ l ∧ firstId < lm.commit_id ∧
        recheckOk reader matcher lm.commit_id ∧
        ∀ c ∈ l, firstId < c → recheckOk reader matcher c → c ≤ lm.commit_id := by
  intro l
  induction l with
  | nil => intro lm _ h; exact absurd h (by intro h; cases h)
  | cons c rest ih =>
      intro lm hs h
      unfold srFindLast at h
      by_cases hbr : c ≤ firstId
      · rw [if_pos hbr] at h
        simp [pure, Except.pure] at h
      · rw [if_neg hbr] at h
        cases hg : get_search_result_at_commit reader matcher c with
        | error e =>
            rw [hg, except_bind_error] at h
            exact absurd h (by intro h; cases h)
        | ok pm =>
            rw [hg, except_bind_ok] at h
            rcases pm with ⟨path, m⟩
            rcases m with _ | lm'
            · dsimp only at h
              have hrest := ih lm (List.pairwise_cons.mp hs).2 h
              refine ⟨List.mem_cons_of_mem _ hrest.1, hrest.2.1, hrest.2.2.1, ?_⟩
              intro c' hc' hlt hok
              rcases List.mem_cons.mp hc' with rfl | hc'
              · exfalso
                obtain ⟨path', r', hr'⟩ := hok
                rw [hg] at hr'
                cases hr'
              · exact hrest.2.2.2 c' hc' hlt hok
            · dsimp only at h
              simp only [pure, Except.pure, Except.ok.injEq, Option.some.injEq] at h
              subst h
              have hcid : lm'.commit_id = c := gsr_commit_id _ _ _ _ _ hg
              refine ⟨by simp [hcid], by omega, ⟨path, lm', by rwa [hcid]⟩, ?_⟩
              intro c' hc' _ _
              rcases List.mem_cons.mp hc' with rfl | hc'
              · omega
              · have : c > c' := (List.pairwise_cons.mp hs).1 c' hc'
                omega

theorem srFindLast_ok_none {γ μ : Type}
    (reader : ℕ → Except String (Option (String × γ)))
    (matcher : γ → Except String (Option μ)) (firstId : ℕ) :
    ∀ (l : List ℕ),
      l.Pairwise (· > ·) →
      srFindLast reader matcher firstId l = Except.ok none →
      ∀ c ∈ l, firstId < c → ¬ recheckOk reader matcher c := by
  intro l
  induction l with
  | nil => intro _ _ c hc; cases hc
  | cons c rest ih =>
      intro hs h c' hc' hlt
      unfold srFindLast at h
      by_cases hbr : c ≤ firstId
      · exfalso
        rcases List.mem_cons.mp hc' with rfl | hc'
        · omega
        · have : c > c' := (List.pairwise_cons.mp hs).1 c' hc'
          omega
      · rw [if_neg hbr] at h
        cases hg : get_search_result_at_commit reader matcher c with
        | error e =>
            rw [hg, except_bind_error] at h
            exact absurd h (by intro h; cases h)
        | ok pm =>
            rw [hg, except_bind_ok] at h
            rcases pm with ⟨path, m⟩
            rcases m with _ | lm'
            · dsimp only at h
              rcases List.mem_cons.mp hc' with rfl | hc'
              · rintro ⟨path', r', hr'⟩
                rw [hg] at hr'
                cases hr'
              · exact ih (List.pairwise_cons.mp hs).2 h c' hc' hlt
            · dsimp only at h
              simp [pure, Except.pure] at h

/-! ### Theorems for claim C3 -/

/-- C3: when `SearchResult::new` returns `Some(hit)`, `first_match.commit_id`
is the minimum commit in the overlapped set whose semantic re-check (against
the actual blob content) succeeds; `last_match`, when present, is the maximum
such commit strictly greater than `first_match.commit_id` (so
`first_match.commit_id ≤ last_match.commit_id`); `last_match` is absent
exactly when no strictly-greater overlapped commit re-checks successfully;
and when the re-check finds no match at every overlapped commit, the raw
result is discarded (`new` returns `None`). -/
theorem c3_search_result_first_last {γ μ : Type}
    (reader : ℕ → Except String (Option (String × γ)))
    (matcher : γ → Except String (Option μ)) (overlapped : Finset ℕ) :
    (∀ hit : SearchResultHit μ,
      SearchResult.new reader matcher overlapped = Except.ok (some hit) →
        (hit.first_match.commit_id ∈ overlapped ∧
          recheckOk reader matcher hit.first_match.commit_id ∧
          ∀ c ∈ overlapped, recheckOk reader matcher c →
            hit.first_match.commit_id ≤ c) ∧
        (∀ lm, hit.last_match = some lm →
          lm.commit_id ∈ overlapped ∧ recheckOk reader matcher lm.commit_id ∧
            hit.first_match.commit_id < lm.commit_id ∧
            ∀ c ∈ overlapped, hit.first_match.commit_id < c →
              recheckOk reader matcher c → c ≤ lm.commit_id) ∧
        (hit.last_match = none →
          ∀ c ∈ overlapped, recheckOk reader matcher c →
            c ≤ hit.first_match.commit_id)) ∧
    ((∀ c ∈ overlapped, recheckFails reader matcher c) →
      SearchResult.new reader matcher overlapped = Except.ok none) := by
  constructor
  · intro hit h
    unfold SearchResult.new at h
    cases hf : srFindFirst reader matcher (bmAscend overlapped) with
    | error e =>
        rw [hf, except_bind_error] at h
        exact absurd h (by intro hh; cases hh)
    | ok ff =>
        rw [hf, except_bind_ok] at h
        rcases ff with _ | ⟨path, first⟩
        · dsimp only at h
          simp [pure, Except.pure] at h
        · dsimp only at h
          cases hl : srFindLast reader matcher first.commit_id
              (bmAscend overlapped).reverse with
          | error e =>
              rw [hl, except_bind_error] at h
              exact absurd h (by intro hh; cases hh)
          | ok last =>
              rw [hl, except_bind_ok] at h
              simp only [pure, Except.pure, Except.ok.injEq,
                Option.some.injEq] at h
              subst h
              dsimp only
              have hfirst := srFindFirst_ok_some reader matcher
                (bmAscend overlapped) path first
                ((bmAscend_sorted overlapped).imp (fun hab => hab)) hf
              have hdesc : ((bmAscend overlapped).reverse).Pairwise (· > ·) := by
                rw [List.pairwise_reverse]
                exact bmAscend_sorted overlapped
              refine ⟨⟨(mem_bmAscend _ _).mp hfirst.1, hfirst.2.1, ?_⟩, ?_, ?_⟩
              · intro c hc hok
                exact hfirst.2.2 c ((mem_bmAscend _ _).mpr hc) hok
              · intro lm hlm
                have hle : last = some lm := by simpa using hlm
                subst hle
                have hlast := srFindLast_ok_some reader matcher first.commit_id
                  ((bmAscend overlapped).reverse) lm hdesc hl
                refine ⟨(mem_bmAscend _ _).mp (List.mem_reverse.mp hlast.1),
                  hlast.2.2.1, hlast.2.1, ?_⟩
                intro c hc hgt hok
                exact hlast.2.2.2 c
                  (List.mem_reverse.mpr ((mem_bmAscend _ _).mpr hc)) hgt hok
              · intro hnone c hc hok
                have hle : last = none := by simpa using hnone
                subst hle
                by_contra hgt
                exact srFindLast_ok_none reader matcher first.commit_id
                  ((bmAscend overlapped).reverse) hdesc hl c
                  (List.mem_reverse.mpr ((mem_bmAscend _ _).mpr hc))
                  (by omega) hok
  · intro hall
    unfold SearchResult.new
    rw [srFindFirst_all_fail reader matcher (bmAscend overlapped)
      (fun c hc => hall c ((mem_bmAscend _ _).mp hc)), except_bind_ok]
    rfl

/-- A concrete repo reader for the C3 witness: the blob at commit `c` has
content `c`. -/
def c3Reader : ℕ → Except String (Option (String × ℕ)) :=
  fun c => Except.ok (some ("f", c))

/-- A concrete matcher for the C3 witness: contents `2` and `5` match. -/
def c3Matcher : ℕ → Except String (Option Unit) :=
  fun content =>
    Except.ok (if content == 2 || content == 5 then some () else none)

/-- Witness for C3 at a concrete input: overlapped commits `{0, 2, 5}` where
the re-check succeeds at `2` and `5`; `SearchResult::new` picks
`first_match = 2` and `last_match = 5`, and the theorem's characterization
applies. -/
theorem c3_witness :
    (SearchResult.new c3Reader c3Matcher {0, 2, 5} = Except.ok
      (some { file_path := "f",
              first_match := { commit_id := 2, payload := () },
              last_match := some { commit_id := 5, payload := () } })) ∧
    ({ commit_id := 2, payload := () } : SCSR Unit).commit_id ∈
        ({0, 2, 5} : Finset ℕ) ∧
      recheckOk c3Reader c3Matcher 2 ∧
      ∀ c ∈ ({0, 2, 5} : Finset ℕ), recheckOk c3Reader c3Matcher c →
        ({ commit_id := 2, payload := () } : SCSR Unit).commit_id ≤ c := by
  have h : SearchResult.new c3Reader c3Matcher {0, 2, 5} = Except.ok
      (some { file_path := "f",
              first_match := { commit_id := 2, payload := () },
              last_match := some { commit_id := 5, payload := () } }) := rfl
  exact ⟨h, ((c3_search_result_first_last c3Reader c3Matcher {0, 2, 5}).1 _ h).1⟩

/-! ### Document model (`crep-indexer/src/index/document.rs`)

`WordIndex.word_history` is a `PriorityQueue<WordKey, CommitEndPriority>`;
the queue is modelled as an association list with unique keys, and `peek`
(whose result is only inspected for its priority) as the greatest priority
under the `CommitEndPriority` order, where `None` (a still-live introduction)
is greater than every `Some` and `Some`s compare by value.  The `HashMap`
of words is modelled as a lookup function.  `commit_index - 1` is `usize`
subtraction in the source; every indexing call site has `commit_index ≥ 1`
(commit 0 is the root commit, which only adds words). -/

/-- `WordKey`: the commit and line-within-commit of an introduction. -/
structure WordKey where
  commit_id : ℕ
  line : ℕ
  deriving Repr, DecidableEq

/-- `CommitEndPriority`: `none` marks a still-live introduction. -/
abbrev CommitEndPriority := Option ℕ

/-- The word-history priority queue: key/priority pairs, keys unique. -/
abbrev WordHistory := List (WordKey × CommitEndPriority)

/-- Maximum of two priorities under the `CommitEndPriority` order
(`None > Some(_)`, `Some`s by value). -/
def cepMax : CommitEndPriority → CommitEndPriority → CommitEndPriority
  | none, _ => none
  | _, none => none
  | some a, some b => some (max a b)

/-- `PriorityQueue::change_priority`: updates the priority when the key is
present, otherwise does nothing. -/
def pqChangePriority (pq : WordHistory) (k : WordKey) (p : CommitEndPriority) :
    WordHistory :=
  pq.map (fun e => if e.1 = k then (e.1, p) else e)

/-- The priority of `PriorityQueue::peek`: `none` when the queue is empty,
otherwise the greatest priority in the queue. -/
def pqPeekPriority (pq : WordHistory) : Option CommitEndPriority :=
  match pq.map Prod.snd with
  | [] => none
  | p :: ps => some (ps.foldl cepMax p)

/-- `WordIndex`: the history queue and the commit-inclusivity bitmap. -/
structure WordIndex where
  word_history : WordHistory
  commit_inclutivity : Finset ℕ
  deriving DecidableEq

/-- `Document`: the per-file word map and the finalized FST. -/
structure Document where
  words : String → Option WordIndex
  all_words : Option (List String)

/-- The mutation `update_commit_inclutivity` applies to a present word
index: when the queue is non-empty, fill the inclusivity bitmap from its
current maximum up to the end commit — the current commit when the greatest
priority is `None` (a live introduction remains), or the recorded end
otherwise (`insert_range` over `last_enabled_bit .. end_commit_index + 1`). -/
def inclAfterUpdate (commit_index : ℕ) (wi : WordIndex) : WordIndex :=
  match pqPeekPriority wi.word_history with
  | none => wi
  | some last_commit =>
      let end_commit_index : ℕ :=
        match last_commit with
        | none => commit_index
        | some commit_id => commit_id
      match wi.commit_inclutivity.max with
      | some last_enabled_bit =>
          { wi with commit_inclutivity :=
              wi.commit_inclutivity ∪ Finset.Ico last_enabled_bit (end_commit_index + 1) }
      | ⊥ =>
          { wi with commit_inclutivity :=
              insert end_commit_index wi.commit_inclutivity }

/-- `Document::update_commit_inclutivity`. -/
def Document.update_commit_inclutivity (d : Document) (commit_index : ℕ)
    (word : String) : Document :=
  match d.words word with
  | none => d
  | some wi =>
      { d with words := fun w =>
          if w = word then some (inclAfterUpdate commit_index wi) else d.words w }

/-- End each listed key at `commit_index - 1` in a history queue. -/
def endKeys (commit_index : ℕ) (keys : List WordKey) (hist : WordHistory) :
    WordHistory :=
  keys.foldl
    (fun pq word_key => pqChangePriority pq word_key (some (commit_index - 1)))
    hist

/-- One iteration of the first loop of `Document::remove_words`: when the
item's word is present, mark each listed key as ended at `commit_index - 1`. -/
def removeWordsStep (commit_index : ℕ) (acc : Document)
    (item : String × List WordKey) : Document :=
  match acc.words item.1 with
  | some wi =>
      { acc with words := (fun w =>
          if w = item.1 then
            some { wi with word_history := endKeys commit_index item.2 wi.word_history }
          else acc.words w) }
  | none => acc

/-- The first loop of `Document::remove_words`. -/
def removeWordsPhase1 (d : Document) (commit_index : ℕ)
    (items : List (String × List WordKey)) : Document :=
  items.foldl (removeWordsStep commit_index) d

/-- `Document::remove_words`: end the listed introductions, then update the
commit inclusivity of each distinct affected word (the `HashSet` of modified
words; updates of distinct words touch disjoint entries, so the set's
iteration order is immaterial and is modelled by `dedup` order). -/
def Document.remove_words (d : Document) (commit_index : ℕ)
    (items : List (String × List WordKey)) : Document :=
  let d1 := removeWordsPhase1 d commit_index items
  ((items.map Prod.fst).dedup).foldl
    (fun acc word => acc.update_commit_inclutivity commit_index word) d1

/-- The history of word `t` after `remove_words(c, items)` ended its listed
keys. -/
def endedHistory (hist : WordHistory) (commit_index : ℕ)
    (items : List (String × List WordKey)) (t : String) : WordHistory :=
  endKeys commit_index ((items.filter (fun it => it.1 = t)).flatMap Prod.snd) hist

theorem removeWordsStep_words (c : ℕ) (d : Document)
    (item : String × List WordKey) (t : String) :
    (removeWordsStep c d item).words t =
      if t = item.1 then
        match d.words item.1 with
        | none => d.words t
        | some wi =>
            some { wi with word_history := endKeys c item.2 wi.word_history }
      else d.words t := by
  unfold removeWordsStep
  cases hw : d.words item.1 with
  | none => simp [hw]
  | some wi =>
      by_cases hti : t = item.1
      · subst hti
        simp [hw]
      · simp [hw, hti]

theorem phase1_words (items : List (String × List WordKey)) :
    ∀ (d : Document) (commit_index : ℕ) (t : String),
      (removeWordsPhase1 d commit_index items).words t =
        match d.words t with
        | none => none
        | some wi =>
            some { wi with
              word_history := endedHistory wi.word_history commit_index items t } := by
  induction items with
  | nil =>
      intro d c t
      unfold removeWordsPhase1
      cases hw : d.words t with
      | none => simp [hw]
      | some wi =>
          simp only [List.foldl_nil, hw]
          rfl
  | cons item rest ih =>
      intro d c t
      have hstep : removeWordsPhase1 d c (item :: rest) =
          removeWordsPhase1 (removeWordsStep c d item) c rest := rfl
      rw [hstep, ih]
      rw [removeWordsStep_words]
      by_cases hti : t = item.1
      · rw [if_pos hti, hti]
        cases hw : d.words item.1 with
        | none => rfl
        | some wi =>
            have hend : endedHistory (endKeys c item.2 wi.word_history) c rest item.1 =
                endedHistory wi.word_history c (item :: rest) item.1 := by
              unfold endedHistory endKeys
              rw [List.filter_cons_of_pos (by simp), List.flatMap_cons,
                List.foldl_append]
            dsimp only
            rw [hend]
      · rw [if_neg hti]
        have hfe : ∀ h : WordHistory,
            endedHistory h c (item :: rest) t = endedHistory h c rest t := by
          intro h
          unfold endedHistory
          rw [List.filter_cons_of_neg]
          simp only [decide_eq_true_eq]
          intro hh
          exact hti hh.symm
        simp only [hfe]

theorem update_words_self (d : Document) (c : ℕ) (t : String) :
    (d.update_commit_inclutivity c t).words t = (d.words t).map (inclAfterUpdate c) := by
  unfold Document.update_commit_inclutivity
  cases hw : d.words t with
  | none => simp [hw]
  | some wi => simp [hw]

theorem update_words_other (d : Document) (c : ℕ) (t w : String) (h : w ≠ t) :
    (d.update_commit_inclutivity c t).words w = d.words w := by
  unfold Document.update_commit_inclutivity
  cases hw : d.words t with
  | none => rfl
  | some wi => simp [h]

theorem phase2_words (c : ℕ) :
    ∀ (ws : List String) (d : Document) (t : String), ws.Nodup →
      (ws.foldl (fun acc word => acc.update_commit_inclutivity c word) d).words t =
        if t ∈ ws then (d.words t).map (inclAfterUpdate c) else d.words t := by
  intro ws
  induction ws with
  | nil => intro d t _; simp
  | cons w rest ih =>
      intro d t hnd
      rw [List.foldl_cons, ih _ _ (List.nodup_cons.mp hnd).2]
      by_cases htw : t = w
      · subst htw
        have ht_not : t ∉ rest := (List.nodup_cons.mp hnd).1
        rw [if_neg ht_not, if_pos (by simp), update_words_self]
      · by_cases htr : t ∈ rest
        · rw [if_pos htr, if_pos (by simp [htr]), update_words_other d c w t htw]
        · rw [if_neg htr, if_neg (by simp [htw, htr]), update_words_other d c w t htw]

theorem remove_words_spec (d : Document) (c : ℕ)
    (items : List (String × List WordKey)) (t : String) :
    (d.remove_words c items).words t =
      if t ∈ items.map Prod.fst then
        match d.words t with
        | none => none
        | some wi =>
            some (inclAfterUpdate c
              { wi with word_history := endedHistory wi.word_history c items t })
      else d.words t := by
  unfold Document.remove_words
  rw [phase2_words c _ _ _ (List.nodup_dedup _), phase1_words]
  by_cases hmem : t ∈ items.map Prod.fst
  · rw [if_pos (List.mem_dedup.mpr hmem), if_pos hmem]
    cases hw : d.words t <;> rfl
  · rw [if_neg (fun hh => hmem (List.mem_dedup.mp hh)), if_neg hmem]
    cases hw : d.words t with
    | none => rfl
    | some wi =>
        have hfe : endedHistory wi.word_history c items t = wi.word_history := by
          unfold endedHistory endKeys
          have : items.filter (fun it => it.1 = t) = [] := by
            rw [List.filter_eq_nil_iff]
            intro it hit
            simp only [decide_eq_true_eq]
            intro hh
            exact hmem (by
              rw [← hh]
              exact List.mem_map_of_mem Prod.fst hit)
          rw [this]
          rfl
        dsimp only
        rw [hfe]

/-- The concrete document for the C2 counterexample: word `"abc"` has two
live introductions at commit 0 and inclusivity `{0}`. -/
def c2Doc : Document :=
  { words := fun w =>
      if w = "abc" then
        some { word_history := [(⟨0, 0⟩, none), (⟨0, 1⟩, none)],
               commit_inclutivity := {0} }
      else none,
    all_words := none }

/-- The C2 counterexample removal: at commit 5, remove only the first
introduction of `"abc"`. -/
def c2Items : List (String × List WordKey) := [("abc", [⟨0, 0⟩])]

/-! ### Theorems for claim C2 -/

/-- C2 counterexample: the claim states that when a live (un-ended)
introduction of an affected trigram remains, `commit_inclusivity` is left
unchanged.  Removing one of two live introductions of `"abc"` at commit 5
leaves a live introduction (the peeked priority is `None`), yet the code
fills `commit_inclusivity` from its maximum up to and including commit 5:
`{0}` becomes `{0, 1, 2, 3, 4, 5}`. -/
theorem c2_counterexample :
    pqPeekPriority (endedHistory [(⟨0, 0⟩, none), (⟨0, 1⟩, none)] 5 c2Items "abc") =
        some none ∧
      (c2Doc.words "abc").map WordIndex.commit_inclutivity = some {0} ∧
      ((c2Doc.remove_words 5 c2Items).words "abc").map WordIndex.commit_inclutivity =
        some {0, 1, 2, 3, 4, 5} ∧
      ({0, 1, 2, 3, 4, 5} : Finset ℕ) ≠ {0} := by
  refine ⟨rfl, rfl, ?_, by decide⟩
  decide

/-- C2 (amended): `Document::remove_words(c, items)` leaves unaffected
trigrams (and affected trigrams absent from the word map) unchanged; for an
affected trigram `t` present with index `wi`, its history becomes
`endedHistory` (the listed keys marked ended at `c−1`), and its
commit-inclusivity is updated as follows: if the history is empty, it is
unchanged; if a live introduction remains (greatest priority `None`), the
bits `[max(commit_inclusivity) .. c]` (inclusive) are added — not nothing, as
the claim stated; if all introductions are ended with greatest recorded end
`p`, the bits `[max(commit_inclusivity) .. p]` (inclusive) are added — `p` is
`c − 1` whenever this removal ended a key and no key had a later recorded
end, giving the claim's `[max .. c-1]` range. -/
theorem c2_remove_words_amended (d : Document) (c : ℕ)
    (items : List (String × List WordKey)) (t : String) :
    (t ∉ items.map Prod.fst → (d.remove_words c items).words t = d.words t) ∧
    (d.words t = none → (d.remove_words c items).words t = none) ∧
    (∀ wi, d.words t = some wi → t ∈ items.map Prod.fst →
      ((pqPeekPriority (endedHistory wi.word_history c items t) = none →
        (d.remove_words c items).words t =
          some { word_history := endedHistory wi.word_history c items t,
                 commit_inclutivity := wi.commit_inclutivity }) ∧
      (∀ M, pqPeekPriority (endedHistory wi.word_history c items t) = some none →
        wi.commit_inclutivity.max = some M →
        (d.remove_words c items).words t =
          some { word_history := endedHistory wi.word_history c items t,
                 commit_inclutivity :=
                   wi.commit_inclutivity ∪ Finset.Ico M (c + 1) }) ∧
      (∀ M p, pqPeekPriority (endedHistory wi.word_history c items t) =
          some (some p) →
        wi.commit_inclutivity.max = some M →
        (d.remove_words c items).words t =
          some { word_history := endedHistory wi.word_history c items t,
                 commit_inclutivity :=
                   wi.commit_inclutivity ∪ Finset.Ico M (p + 1) }))) := by
  refine ⟨?_, ?_, ?_⟩
  · intro hmem
    rw [remove_words_spec, if_neg hmem]
  · intro hnone
    rw [remove_words_spec]
    by_cases hmem : t ∈ items.map Prod.fst
    · rw [if_pos hmem, hnone]
    · rw [if_neg hmem, hnone]
  · intro wi hw hmem
    have hbase : (d.remove_words c items).words t =
        some (inclAfterUpdate c
          { wi with word_history := endedHistory wi.word_history c items t }) := by
      rw [remove_words_spec, if_pos hmem, hw]
    refine ⟨?_, ?_, ?_⟩
    · intro hpeek
      rw [hbase]
      unfold inclAfterUpdate
      dsimp only
      rw [hpeek]
    · intro M hpeek hmax
      rw [hbase]
      unfold inclAfterUpdate
      dsimp only
      rw [hpeek, hmax]
    · intro M p hpeek hmax
      rw [hbase]
      unfold inclAfterUpdate
      dsimp only
      rw [hpeek, hmax]

/-- Witness for C2 at the concrete counterexample state: a live introduction
remains and the bits `[0 .. 5]` are added. -/
theorem c2_witness :
    (c2Doc.remove_words 5 c2Items).words "abc" =
      some { word_history := endedHistory [(⟨0, 0⟩, none), (⟨0, 1⟩, none)] 5 c2Items "abc",
             commit_inclutivity := ({0} : Finset ℕ) ∪ Finset.Ico 0 (5 + 1) } :=
  ((c2_remove_words_amended c2Doc 5 c2Items "abc").2.2
    { word_history := [(⟨0, 0⟩, none), (⟨0, 1⟩, none)], commit_inclutivity := {0} }
    (by decide) (by decide)).2.1 0 (by decide) (by decide)

/-! ### Query engine (`crep-indexer/src/search/git_searcher.rs`)

The global index.  `RoaringBitmap`s are `Finset ℕ`, maps are lookup
functions, and the global FST is the sorted list of all trigrams.  The
`LruCache` of `GitSearcher` only memoizes `get_document_bitmap_containing_word`
and is dropped from the model (the function is pure). -/

/-- `GitIndex`: the finalized global index (the fields the query engine
reads). -/
structure GitIndex where
  all_words : List String
  word_to_file_id_ever_contained : String → Option Bitmap
  file_id_to_document : ℕ → Option Document

/-- `Query`: the query form recorded in a raw result. -/
inductive Query where
  | Words (ws : List String)
  | Regex (s : String)
  deriving Repr, DecidableEq

/-- `RawPerFileSearchResult`. -/
structure RawPerFileSearchResult where
  query : Query
  file_id : ℕ
  overlapped_commits : Bitmap
  deriving DecidableEq

/-- The trigram tokens of a word, as strings
(`Tokenizer::split_lines_to_tokens(..., Trigram)` on the single line). -/
def strTrigramTokens (w : String) : List String :=
  (crep_split_by_trigram w.data).map List.asString

/-- `find_all_words_containing_key`: the DFA search of the global FST for the
pattern `k.|.k` (2-byte keys) or `k..|.k.|..k` (1-byte keys); a key of the
set matches when the whole key matches one alternative, `.` standing for one
character.  Any other key length panics (`none`). -/
def find_all_words_containing_key (key : String) (all_words : List String) :
    Option (List String) :=
  if key.utf8ByteSize = 2 then
    some (all_words.filter (fun w =>
      decide (w.data.length = key.data.length + 1) &&
        ((w.data.take key.data.length == key.data) || (w.data.drop 1 == key.data))))
  else if key.utf8ByteSize = 1 then
    some (all_words.filter (fun w =>
      decide (w.data.length = key.data.length + 2) &&
        ((w.data.take key.data.length == key.data) ||
          ((w.data.drop 1).take key.data.length == key.data) ||
          (w.data.drop 2 == key.data))))
  else none

/-- `GitSearcher::get_document_bitmap_containing_word` (without the cache):
the outer `none` models a panic (`union_bitmaps(..).unwrap()` when no FST
word matches a short key); the inner `Option` is the Rust function's return
value. -/
def get_document_bitmap_containing_word (idx : GitIndex) (word : String) :
    Option (Option (String × Bitmap)) :=
  if word.utf8ByteSize ≤ 2 then
    match find_all_words_containing_key word idx.all_words with
    | none => none
    | some found =>
        let docs := found.filterMap idx.word_to_file_id_ever_contained
        match union_bitmaps docs with
        | none => none
        | some overlaps => some (some (word, overlaps))
  else
    let trigrams :=
      ((strTrigramTokens word).filter (fun w => 3 ≤ w.utf8ByteSize)).dedup
    let bitmaps := trigrams.filterMap idx.word_to_file_id_ever_contained
    if bitmaps.length ≠ trigrams.length then some none
    else
      match intersect_bitmaps bitmaps with
      | none => none
      | some inter => some (some (word, inter))

/-- The word loop of `GitSearcher::search`: `none` models a panic inside
`get_document_bitmap_containing_word`; `some none` the early
`return vec![]` when a word matches no document. -/
def collectWordBitmaps (idx : GitIndex) :
    List String → Option (Option (List (String × Bitmap)))
  | [] => some (some [])
  | w :: rest =>
      match get_document_bitmap_containing_word idx w with
      | none => none
      | some none => some none
      | some (some b) =>
          match collectWordBitmaps idx rest with
          | none => none
          | some none => some none
          | some (some bs) => some (some (b :: bs))

/-- `GitSearcher::find_matching_commit_histories_in_doc`, long-word branch
helper: walk the word's (deduplicated) tokens, skip tokens shorter than 3
bytes, and collect each remaining token's commit-inclusivity; `none` models
the early `return vec![]` when a token is absent from the document. -/
def collectTokenBitmaps (doc : Document) : List String → Option (List Bitmap)
  | [] => some []
  | w :: rest =>
      if w.utf8ByteSize < 3 then collectTokenBitmaps doc rest
      else
        match doc.words w with
        | some b =>
            match collectTokenBitmaps doc rest with
            | none => none
            | some bs => some (b.commit_inclutivity :: bs)
        | none => none

/-- `GitSearcher::find_matching_commit_histories_in_doc`: the outer `none`
models a panic (`all_words.unwrap()`, or an `unwrap()` of an empty
intersection); the returned list is the Rust `Vec<(String, RoaringBitmap)>`
(empty when a trigram of the word is absent from the document). -/
def find_matching_commit_histories_in_doc (doc : Document) (word : String) :
    Option (List (String × Bitmap)) :=
  if word.utf8ByteSize < 3 then
    match doc.all_words with
    | none => none
    | some aw =>
        match find_all_words_containing_key word aw with
        | none => none
        | some found =>
            match intersect_bitmaps
                (found.filterMap
                  (fun w => (doc.words w).map WordIndex.commit_inclutivity)) with
            | none => none
            | some b => some [(word, b)]
  else
    match collectTokenBitmaps doc ((strTrigramTokens word).dedup) with
    | none => some []
    | some bs =>
        match intersect_bitmaps bs with
        | none => none
        | some b => some [(word, b)]

/-- One permutation of `GitSearcher::find_overlapping_document`: select one
`(word, commit bitmap)` per query word and intersect. -/
def selectPermutation (histories : List (List (String × Bitmap)))
    (perm : List ℕ) : Option (List String × List Bitmap) :=
  match (perm.zip histories).mapM (fun p => p.2.get? p.1) with
  | none => none
  | some selected => some (selected.map Prod.fst, selected.map Prod.snd)

/-- The per-file body of `GitSearcher::find_overlapping_document`. -/
def overlappingForFile (idx : GitIndex) (bitmaps : List (String × Bitmap))
    (file_id : ℕ) : Option (List RawPerFileSearchResult) :=
  match idx.file_id_to_document file_id with
  | none => some []
  | some document => do
      let commit_histories_per_word ← bitmaps.mapM
        (fun b => find_matching_commit_histories_in_doc document b.1)
      let perms ← permutations (commit_histories_per_word.map List.length)
      let rows ← perms.mapM (fun perm => do
        let (selected_words, selected_bitmaps) ←
          selectPermutation commit_histories_per_word perm
        let overlapped ← intersect_bitmaps selected_bitmaps
        pure (selected_words, overlapped))
      pure <| rows.filterMap (fun row =>
        if row.2 = ∅ then none
        else some { query := Query.Words row.1, file_id := file_id,
                    overlapped_commits := row.2 })

/-- `GitSearcher::find_overlapping_document`: intersects the per-word
document bitmaps (`intersect_bitmaps(..).unwrap()` — a panic, `none`, on an
empty word list) and scans the resulting files. -/
def find_overlapping_document (idx : GitIndex)
    (bitmaps : List (String × Bitmap)) : Option (List RawPerFileSearchResult) := do
  let intersected ← intersect_bitmaps (bitmaps.map Prod.snd)
  let rows ← (bmAscend intersected).mapM (overlappingForFile idx bitmaps)
  pure rows.flatten

/-- `str::split_whitespace`: maximal runs of non-whitespace characters. -/
def splitWhitespaceChars : List Char → List Char → List String
  | [], acc => if acc.isEmpty then [] else [acc.reverse.asString]
  | c :: rest, acc =>
      if c.isWhitespace then
        (if acc.isEmpty then [] else [acc.reverse.asString]) ++
          splitWhitespaceChars rest []
      else splitWhitespaceChars rest (c :: acc)

/-- The words of a query (`query.split_whitespace()`). -/
def split_whitespace (q : String) : List String := splitWhitespaceChars q.data []

/-- `GitSearcher::search`: empty queries return no results; otherwise the
query is split on whitespace and the per-word document bitmaps are
intersected. -/
def GitSearcher.search (idx : GitIndex) (query : String) :
    Option (List RawPerFileSearchResult) :=
  if query = "" then some []
  else
    match collectWordBitmaps idx (split_whitespace query) with
    | none => none
    | some none => some []
    | some (some bitmaps) => find_overlapping_document idx bitmaps

/-! ### Theorems for claim C6 -/

/-- C6: the claim states that plain search returns an empty result list and
raises no error both on the empty query and on a whitespace-only query, for
every index state.  The empty query does return `[]`; but a whitespace-only
query splits into zero words, reaches
`intersect_bitmaps(&[]).unwrap()` in `find_overlapping_document` and
panics (`none` in the model), for every index. -/
theorem c6_empty_and_whitespace_query (idx : GitIndex) :
    GitSearcher.search idx "" = some [] ∧
      GitSearcher.search idx " " = none := by
  constructor
  · rfl
  · rfl

/-! ### Regex raw search (`GitSearcher::regex_search`) -/

/-- Modelled from the spec: `Trigram::create_matching_regex_or_string` and
the class-expansion half of `find_matching_trigram` are not under the
sources (only their caller is).  Per the spec, a bare literal trigram is
looked up directly (the `RegexOrString::String` branch returns the single
literal key) while a class-carrying trigram is expanded through the FST by
DFA search; with the source's `CharacterClass` enum (whose only variant is a
literal `Char`), every trigram takes the literal branch, so the expansion is
the singleton list of the trigram's own string. -/
def find_matching_trigram (key : Trigram) (_all_words : List String) :
    List String :=
  [key.toChars.asString]

/-- The per-trigram document-bitmap loop of `GitSearcher::regex_search`:
`none` models the `docs_bitmaps.clear(); break` paths (no matching trigram
in the index, or an empty union). -/
def regexDocsBitmaps (idx : GitIndex) : List Trigram → Option (List Bitmap)
  | [] => some []
  | trig :: rest =>
      let fetched := find_matching_trigram trig idx.all_words
      let docs := fetched.filterMap idx.word_to_file_id_ever_contained
      if docs.isEmpty then none
      else
        match union_bitmaps docs with
        | none => none
        | some u =>
            if u = ∅ then none
            else (regexDocsBitmaps idx rest).map (u :: ·)

/-- The per-trigram commit-bitmap loop of
`find_matching_commit_histories_in_doc_from_trigrams`: `none` models the
early `Ok(None)` returns (`all_words` absent, or no matching trigram carries
a commit history in this document). -/
def regexDocCommitBitmaps (doc : Document) : List Trigram → Option (List Bitmap)
  | [] => some []
  | trig :: rest =>
      match doc.all_words with
      | none => none
      | some aw =>
          let matching := find_matching_trigram trig aw
          let hists := matching.filterMap
            (fun t => (doc.words t).map WordIndex.commit_inclutivity)
          if hists.isEmpty then none
          else
            match union_bitmaps hists, regexDocCommitBitmaps doc rest with
            | some u, some bs => some (u :: bs)
            | _, _ => none

/-- `GitSearcher::find_matching_commit_histories_in_doc_from_trigrams`. -/
def find_matching_commit_histories_from_trigrams (doc : Document)
    (trigrams : List Trigram) : Option Bitmap :=
  if trigrams.isEmpty then none
  else
    match regexDocCommitBitmaps doc trigrams with
    | none => none
    | some bs => intersect_bitmap_vec bs

/-- `GitSearcher::regex_search`, from the planner's candidates on: groups
with an empty trigram list are skipped; for each remaining group the
matching documents are prefiltered through the global index and each
document's overlapped commits are computed. -/
def GitSearcher.regex_search (idx : GitIndex) (queryStr : String)
    (candidates : List SearchPartTrigram) : List RawPerFileSearchResult :=
  (candidates.map (fun cand =>
    if cand.trigrams.isEmpty then []
    else
      match regexDocsBitmaps idx cand.trigrams with
      | none => []
      | some docs_bitmaps =>
          match intersect_bitmap_vec docs_bitmaps with
          | none => []
          | some candidate_docs =>
              (bmAscend candidate_docs).filterMap (fun doc_id =>
                match idx.file_id_to_document doc_id with
                | none => none
                | some doc =>
                    (find_matching_commit_histories_from_trigrams doc
                        cand.trigrams).map
                      (fun history =>
                        { query := Query.Regex queryStr, file_id := doc_id,
                          overlapped_commits := history })))).flatten

theorem mem_foldl_inter (l : List Bitmap) :
    ∀ (acc : Bitmap) (c : ℕ), c ∈ l.foldl (fun a b => a ∩ b) acc →
      c ∈ acc ∧ ∀ b ∈ l, c ∈ b := by
  induction l with
  | nil => intro acc c h; exact ⟨h, by simp⟩
  | cons b rest ih =>
      intro acc c h
      rw [List.foldl_cons] at h
      obtain ⟨hacc, hrest⟩ := ih (acc ∩ b) c h
      have := Finset.mem_inter.mp hacc
      refine ⟨this.1, ?_⟩
      intro b' hb'
      rcases List.mem_cons.mp hb' with rfl | hb'
      · exact this.2
      · exact hrest b' hb'

theorem intersect_bitmap_vec_mem (l : List Bitmap) (x : Bitmap) (c : ℕ)
    (h : intersect_bitmap_vec l = some x) (hc : c ∈ x) : ∀ b ∈ l, c ∈ b := by
  unfold intersect_bitmap_vec at h
  cases hl : l.getLast? with
  | none => rw [hl] at h; cases h
  | some last =>
      rw [hl] at h
      cases h
      obtain ⟨hlast, hdrop⟩ := mem_foldl_inter l.dropLast last c hc
      intro b hb
      have hne : l ≠ [] := by
        intro hnil
        rw [hnil] at hl
        cases hl
      have hdecomp : l = l.dropLast ++ [l.getLast hne] := by
        exact (List.dropLast_append_getLast hne).symm
      have hlast_eq : l.getLast hne = last := by
        have := List.getLast?_eq_getLast l hne
        rw [hl] at this
        exact (Option.some.injEq _ _).mp this.symm
      rw [hdecomp] at hb
      rcases List.mem_append.mp hb with hb | hb
      · exact hdrop b hb
      · simp only [List.mem_singleton] at hb
        subst hb
        rwa [hlast_eq]

theorem union_bitmaps_mem (l : List Bitmap) (u : Bitmap) (c : ℕ)
    (h : union_bitmaps l = some u) (hc : c ∈ u) : ∃ b ∈ l, c ∈ b := by
  unfold union_bitmaps at h
  cases l with
  | nil => cases h
  | cons first rest =>
      cases h
      induction rest generalizing first with
      | nil =>
          simp only [List.foldl_nil] at hc
          exact ⟨first, by simp, hc⟩
      | cons b rest ih =>
          rw [List.foldl_cons] at hc
          obtain ⟨b', hb', hcb'⟩ := ih (first ∪ b) hc
          rcases List.mem_cons.mp hb' with rfl | hb'
          · rcases Finset.mem_union.mp hcb' with hcf | hcb
            · exact ⟨first, by simp, hcf⟩
            · exact ⟨b, by simp, hcb⟩
          · exact ⟨b', by simp [hb'], hcb'⟩

theorem regexDocCommitBitmaps_sound (doc : Document) :
    ∀ (trigs : List Trigram) (bs : List Bitmap),
      regexDocCommitBitmaps doc trigs = some bs →
      ∀ c : ℕ, (∀ b ∈ bs, c ∈ b) →
        ∀ trig ∈ trigs, ∃ key wi, doc.words key = some wi ∧
          c ∈ wi.commit_inclutivity ∧
          ∃ aw, doc.all_words = some aw ∧ key ∈ find_matching_trigram trig aw := by
  intro trigs
  induction trigs with
  | nil => intro bs _ c _ trig htrig; cases htrig
  | cons trig rest ih =>
      intro bs h c hall trig' htrig'
      unfold regexDocCommitBitmaps at h
      cases haw : doc.all_words with
      | none => rw [haw] at h; cases h
      | some aw =>
          rw [haw] at h
          rw [← haw]
          dsimp only at h
          by_cases hemp : (find_matching_trigram trig aw).filterMap
              (fun t => (doc.words t).map WordIndex.commit_inclutivity) |>.isEmpty
          · rw [if_pos hemp] at h; cases h
          · rw [if_neg hemp] at h
            cases hu : union_bitmaps ((find_matching_trigram trig aw).filterMap
                (fun t => (doc.words t).map WordIndex.commit_inclutivity)) with
            | none => rw [hu] at h; cases h
            | some u =>
                rw [hu] at h
                cases hr : regexDocCommitBitmaps doc rest with
                | none => rw [hr] at h; cases h
                | some bs' =>
                    rw [hr] at h
                    cases h
                    rcases List.mem_cons.mp htrig' with rfl | htrig'
                    · have hcu : c ∈ u := hall u (by simp)
                      obtain ⟨b, hb, hcb⟩ := union_bitmaps_mem _ _ _ hu hcu
                      obtain ⟨key, hkey, hmap⟩ := List.mem_filterMap.mp hb
                      cases hw : doc.words key with
                      | none => rw [hw] at hmap; cases hmap
                      | some wi =>
                          rw [hw] at hmap
                          refine ⟨key, wi, hw, ?_, aw, haw, hkey⟩
                          cases hmap
                          exact hcb
                    · exact ih bs' hr c (fun b hb => hall b (by simp [hb]))
                        trig' htrig'

/-! ### Theorems for claim C1 -/

/-- C1: soundness of the regex trigram prefilter.  For every planned
candidate list, every raw result of `GitSearcher::regex_search` and every
commit `c` in its overlapped set, assuming the commit-inclusivity invariant
(`commit_inclutivity(f, t)` is exactly the set of commits at which file `f`
contains trigram key `t`), the commit-`c` version of the file contains, for
each trigram of at least one planned group, one of that trigram's
character-class expansions.  (With the source's `CharacterClass` — literal
characters only — the expansion of a trigram is its own string, and
`find_matching_trigram` does not depend on the word list it searches.) -/
theorem c1_regex_prefilter_soundness
    (idx : GitIndex) (queryStr : String) (cands : List SearchPartTrigram)
    (containsAt : ℕ → ℕ → String → Prop)
    (hinv : ∀ f doc, idx.file_id_to_document f = some doc →
      ∀ key wi, doc.words key = some wi →
        ∀ c, c ∈ wi.commit_inclutivity ↔ containsAt f c key)
    (res : RawPerFileSearchResult)
    (hres : res ∈ GitSearcher.regex_search idx queryStr cands)
    (c : ℕ) (hc : c ∈ res.overlapped_commits) :
    ∃ cand ∈ cands, cand.trigrams ≠ [] ∧
      ∀ trig ∈ cand.trigrams, ∃ key,
        key ∈ find_matching_trigram trig idx.all_words ∧
        containsAt res.file_id c key := by
  unfold GitSearcher.regex_search at hres
  obtain ⟨l, hl, hresl⟩ := List.mem_flatten.mp hres
  obtain ⟨cand, hcand, hfc⟩ := List.mem_map.mp hl
  subst hfc
  refine ⟨cand, hcand, ?_⟩
  by_cases hemp : cand.trigrams.isEmpty
  · rw [if_pos hemp] at hresl
    cases hresl
  · rw [if_neg hemp] at hresl
    cases hdb : regexDocsBitmaps idx cand.trigrams with
    | none => rw [hdb] at hresl; cases hresl
    | some docs_bitmaps =>
        rw [hdb] at hresl
        dsimp only at hresl
        cases hiv : intersect_bitmap_vec docs_bitmaps with
        | none => rw [hiv] at hresl; cases hresl
        | some candidate_docs =>
            rw [hiv] at hresl
            dsimp only at hresl
            obtain ⟨doc_id, _, hdoc_id⟩ := List.mem_filterMap.mp hresl
            cases hdoc : idx.file_id_to_document doc_id with
            | none => rw [hdoc] at hdoc_id; cases hdoc_id
            | some doc =>
                rw [hdoc] at hdoc_id
                dsimp only at hdoc_id
                cases hhist : find_matching_commit_histories_from_trigrams doc
                    cand.trigrams with
                | none => rw [hhist] at hdoc_id; cases hdoc_id
                | some history =>
                    rw [hhist] at hdoc_id
                    cases hdoc_id
                    refine ⟨by simpa using hemp, ?_⟩
                    unfold find_matching_commit_histories_from_trigrams at hhist
                    rw [if_neg hemp] at hhist
                    cases hbs : regexDocCommitBitmaps doc cand.trigrams with
                    | none => rw [hbs] at hhist; cases hhist
                    | some bs =>
                        rw [hbs] at hhist
                        have hall : ∀ b ∈ bs, c ∈ b :=
                          intersect_bitmap_vec_mem bs history c hhist hc
                        intro trig htrig
                        obtain ⟨key, wi, hw, hcwi, aw, haw, hkey⟩ :=
                          regexDocCommitBitmaps_sound doc cand.trigrams bs hbs c
                            hall trig htrig
                        refine ⟨key, ?_, ?_⟩
                        · exact hkey
                        · exact (hinv doc_id doc hdoc key wi hw c).mp hcwi

/-- A one-file document for the C1 witness: trigram `"abc"` present at
commit 3. -/
def c1Doc : Document :=
  { words := fun w =>
      if w = "abc" then
        some { word_history := [], commit_inclutivity := {3} }
      else none,
    all_words := some ["abc"] }

/-- A one-file index for the C1 witness: file 7 is the only file and the
only one ever containing `"abc"`. -/
def c1Index : GitIndex :=
  { all_words := ["abc"],
    word_to_file_id_ever_contained := fun w => if w = "abc" then some {7} else none,
    file_id_to_document := fun f => if f = 7 then some c1Doc else none }

/-- The planned candidates for the C1 witness: one group requiring the
trigram `"abc"`. -/
def c1Cands : List SearchPartTrigram :=
  [{ trigrams := [Trigram.ofChars ['a', 'b', 'c']], docs_to_check := RBitmap.full }]

/-- Containment for the C1 witness, read off the index (which makes the
commit-inclusivity invariant hold definitionally). -/
def c1ContainsAt : ℕ → ℕ → String → Prop := fun f c key =>
  ∃ doc wi, c1Index.file_id_to_document f = some doc ∧
    doc.words key = some wi ∧ c ∈ wi.commit_inclutivity

/-- Witness for C1 at a concrete input: the raw result `(file 7, {3})` of
the query `"abc"` against `c1Index`, at commit 3. -/
theorem c1_witness :
    ∃ cand ∈ c1Cands, cand.trigrams ≠ [] ∧
      ∀ trig ∈ cand.trigrams, ∃ key,
        key ∈ find_matching_trigram trig c1Index.all_words ∧
        c1ContainsAt 7 3 key := by
  have hinv : ∀ f doc, c1Index.file_id_to_document f = some doc →
      ∀ key wi, doc.words key = some wi →
        ∀ c, c ∈ wi.commit_inclutivity ↔ c1ContainsAt f c key := by
    intro f doc hdoc key wi hw c
    constructor
    · intro hc
      exact ⟨doc, wi, hdoc, hw, hc⟩
    · rintro ⟨doc', wi', hdoc', hw', hc'⟩
      rw [hdoc] at hdoc'
      cases hdoc'
      rw [hw] at hw'
      cases hw'
      exact hc'
  exact c1_regex_prefilter_soundness c1Index "abc" c1Cands c1ContainsAt hinv
    { query := Query.Regex "abc", file_id := 7, overlapped_commits := {3} }
    (by decide) 3 (by decide)

/-! ### Line-delta tracker (`src/git/diff.rs`)

`FileDiffTracker` keeps one run ("chunk") per maximal range of lines
introduced together: `commit_line_end[i]` is the exclusive end line of run
`i` and `commit_indexes[i]` its `(commit, line_start_in_commit)` provenance.
`delete_lines` is modelled in the `Option` monad (`none` = an out-of-bounds
`Vec` index panic); `add_lines` never indexes out of bounds and is total.
`binary_search` is specified on sorted input, which the representation
invariant guarantees at every call site. -/

/-- `FileDiffTracker`. -/
structure FileDiffTracker where
  commit_line_end : List ℕ
  commit_indexes : List (ℕ × ℕ)
  deriving Repr, DecidableEq

/-- `LineDeleteResult`: the `[start, end)` span deleted from one commit's
version of the file. -/
structure LineDeleteResult where
  commit_id : ℕ
  start_and_end : ℕ × ℕ
  deriving Repr, DecidableEq

/-- `FileDiffTracker::new`. -/
def FileDiffTracker.new (init_commit : ℕ) (total_line : ℕ) : FileDiffTracker :=
  { commit_line_end := [total_line], commit_indexes := [(init_commit, 0)] }

/-- `FileDiffTracker::find_chunk_index_by_line_num`: `binary_search` on the
(sorted) end vector; an exact hit at `pos` yields `pos + 1` capped at the
length, a miss yields the insertion point (the first index whose end exceeds
the line). -/
def find_chunk_index_by_line_num (t : FileDiffTracker) (line_num : ℕ) : ℕ :=
  match t.commit_line_end.findIdx? (fun x => x == line_num) with
  | some pos =>
      if pos + 1 < t.commit_line_end.length then pos + 1
      else t.commit_line_end.length
  | none => t.commit_line_end.findIdx (fun x => line_num < x)

/-- `FileDiffTracker::get_chunk_start` (`commit_line_end[chunk_index - 1]`;
in bounds at every call site since `chunk_index ≤ len`). -/
def get_chunk_start (t : FileDiffTracker) (chunk_index : ℕ) : ℕ :=
  match chunk_index with
  | 0 => 0
  | i + 1 => t.commit_line_end.getD i 0

/-- `FileDiffTracker::add_lines`. -/
def FileDiffTracker.add_lines (t : FileDiffTracker) (insert_start : ℕ)
    (num_added_lines : ℕ) (commit : ℕ × ℕ) : FileDiffTracker :=
  if num_added_lines = 0 then t
  else
    let chunk_index := find_chunk_index_by_line_num t insert_start
    if chunk_index = t.commit_line_end.length then
      { commit_line_end :=
          t.commit_line_end ++ [t.commit_line_end.getLast?.getD 0 + num_added_lines],
        commit_indexes := t.commit_indexes ++ [commit] }
    else
      let chunk_start := get_chunk_start t chunk_index
      if chunk_start = insert_start then
        { commit_line_end :=
            t.commit_line_end.take chunk_index ++ [chunk_start + num_added_lines] ++
              (t.commit_line_end.drop chunk_index).map (· + num_added_lines),
          commit_indexes :=
            t.commit_indexes.take chunk_index ++ [commit] ++
              t.commit_indexes.drop chunk_index }
      else
        let prev_line_end := t.commit_line_end.getD chunk_index 0
        let old_index := t.commit_indexes.getD chunk_index (0, 0)
        { commit_line_end :=
            t.commit_line_end.take chunk_index ++
              [insert_start, insert_start + num_added_lines,
                prev_line_end + num_added_lines] ++
              (t.commit_line_end.drop (chunk_index + 1)).map (· + num_added_lines),
          commit_indexes :=
            t.commit_indexes.take (chunk_index + 1) ++
              [commit, (old_index.1, old_index.2 + (insert_start - chunk_start))] ++
              t.commit_indexes.drop (chunk_index + 1) }

/-- The tail of `FileDiffTracker::delete_lines` past the case-#2 early
return (the per-chunk result loop, the purge-flag computation, the case-#3
`line_start` adjustment and the drains), split out as its own definition so
the two control paths that fall through to it share one set of lemmas.
`dsi`/`dei` are the already-computed chunk indexes of the first and last
deleted line. -/
def delete_lines_general (t : FileDiffTracker) (delete_start : ℕ)
    (num_deleted_lines : ℕ) (dsi dei : ℕ) :
    Option (FileDiffTracker × List LineDeleteResult) := do
      let cs_dsi := get_chunk_start t dsi
      let results ← (List.range' dsi (dei + 1 - dsi)).mapM (fun i => do
        let e_i ← t.commit_line_end.get? i
        let idx_i ← t.commit_indexes.get? i
        let cs_i := get_chunk_start t i
        let dso := if cs_i < delete_start then delete_start - cs_i else 0
        let deo :=
          if e_i < delete_start + num_deleted_lines then e_i - cs_i
          else delete_start + num_deleted_lines - cs_i
        pure ({ commit_id := idx_i.1,
                start_and_end := (idx_i.2 + dso, idx_i.2 + deo) } : LineDeleteResult))
      let e_dsi ← t.commit_line_end.get? dsi
      let e_dei ← t.commit_line_end.get? dei
      let should_delete_start :=
        e_dsi - cs_dsi ≤ num_deleted_lines ∧ cs_dsi = delete_start
      let should_delete_end := e_dei = delete_start + num_deleted_lines
      let purge_start := if should_delete_start then dsi else dsi + 1
      let purge_end := if should_delete_end then dei else dei - 1
      let last_chunk_start := get_chunk_start t dei
      let idx_dei ← t.commit_indexes.get? dei
      let idxs1 :=
        if delete_start ≤ last_chunk_start then
          t.commit_indexes.set dei
            (idx_dei.1,
              idx_dei.2 + (delete_start + num_deleted_lines - last_chunk_start))
        else t.commit_indexes
      let num_del_from_start :=
        min e_dsi (delete_start + num_deleted_lines) - delete_start
      let ends1 := t.commit_line_end.set dsi (e_dsi - num_del_from_start)
      let ends2 := ends1.take (dsi + 1) ++
        (ends1.drop (dsi + 1)).map (· - num_deleted_lines)
      let ends3 :=
        if purge_start ≤ purge_end then
          ends2.take purge_start ++ ends2.drop (purge_end + 1)
        else ends2
      let idxs2 :=
        if purge_start ≤ purge_end then
          idxs1.take purge_start ++ idxs1.drop (purge_end + 1)
        else idxs1
      pure ({ commit_line_end := ends3, commit_indexes := idxs2 }, results)

/-- `FileDiffTracker::delete_lines`. -/
def FileDiffTracker.delete_lines (t : FileDiffTracker) (delete_start : ℕ)
    (num_deleted_lines : ℕ) : Option (FileDiffTracker × List LineDeleteResult) :=
  if num_deleted_lines = 0 then some (t, [])
  else do
    let dsi := find_chunk_index_by_line_num t delete_start
    let dei := find_chunk_index_by_line_num t (delete_start + num_deleted_lines - 1)
    let cs_dsi := get_chunk_start t dsi
    let case2 ←
      if dsi = dei ∧ cs_dsi < delete_start then
        (t.commit_line_end.get? dsi).map
          (fun e => decide (delete_start + num_deleted_lines < e))
      else pure false
    if case2 then do
      let idx_dsi ← t.commit_indexes.get? dsi
      let newIdxs := t.commit_indexes.take (dsi + 1) ++
        [(idx_dsi.1, idx_dsi.2 + delete_start + num_deleted_lines - cs_dsi)] ++
        t.commit_indexes.drop (dsi + 1)
      let ends1 := t.commit_line_end.take dsi ++ [delete_start] ++
        t.commit_line_end.drop dsi
      let newEnds := ends1.take (dsi + 1) ++
        (ends1.drop (dsi + 1)).map (· - num_deleted_lines)
      let pos := idx_dsi.2 + delete_start - cs_dsi
      pure ({ commit_line_end := newEnds, commit_indexes := newIdxs },
        [{ commit_id := idx_dsi.1,
           start_and_end := (pos, pos + num_deleted_lines) }])
    else delete_lines_general t delete_start num_deleted_lines dsi dei

/-- The representation invariant: the two vectors have equal length and the
run ends are strictly increasing. -/
def TrackerInv (t : FileDiffTracker) : Prop :=
  t.commit_line_end.length = t.commit_indexes.length ∧
    t.commit_line_end.Pairwise (· < ·)

/-- The tracker's current number of lines (the last run end). -/
def totalLines (t : FileDiffTracker) : ℕ := t.commit_line_end.getLast?.getD 0

lemma getD_lt_getD_of_sorted (l : List ℕ) (hs : l.Pairwise (· < ·)) {i j : ℕ}
    (hij : i < j) (hj : j < l.length) : l.getD i 0 < l.getD j 0 := by
  have h := List.pairwise_iff_getElem.mp hs i j (lt_trans hij hj) hj hij
  rw [List.getD_eq_getElem _ _ (lt_trans hij hj), List.getD_eq_getElem _ _ hj]
  exact h

lemma getD_le_getD_of_sorted (l : List ℕ) (hs : l.Pairwise (· < ·)) {i j : ℕ}
    (hij : i ≤ j) (hj : j < l.length) : l.getD i 0 ≤ l.getD j 0 := by
  rcases Nat.lt_or_ge i j with h | h
  · exact le_of_lt (getD_lt_getD_of_sorted l hs h hj)
  · have : i = j := le_antisymm hij h
    subst this; exact le_rfl

lemma le_last_of_sorted (l : List ℕ) (hs : l.Pairwise (· < ·)) :
    ∀ y ∈ l, y ≤ l.getLast?.getD 0 := by
  intro y hy
  rcases List.mem_iff_getElem.mp hy with ⟨k, hk, hky⟩
  have hne : l ≠ [] := by
    intro h; subst h; simp at hy
  rw [List.getLast?_eq_getLast l hne]
  have hlast := List.getLast_eq_getElem l hne
  have hk1 : k ≤ l.length - 1 := by omega
  rcases Nat.lt_or_ge k (l.length - 1) with h | h
  · have := List.pairwise_iff_getElem.mp hs k (l.length - 1) hk (by omega) h
    simp only [Option.getD_some, hlast]
    omega
  · have : k = l.length - 1 := by omega
    subst this
    simp only [Option.getD_some, hlast, hky.symm, le_refl]

lemma find_chunk_le_length (t : FileDiffTracker) (x : ℕ) :
    find_chunk_index_by_line_num t x ≤ t.commit_line_end.length := by
  unfold find_chunk_index_by_line_num
  cases h : t.commit_line_end.findIdx? (fun y => y == x) with
  | none => exact List.findIdx_le_length _
  | some pos =>
      dsimp only
      split <;> omega

/-- Characterization of `find_chunk_index_by_line_num` on a sorted end vector:
everything before the returned index ends at or before `x`, and every run from
the returned index on ends strictly after `x`. -/
lemma find_chunk_spec (t : FileDiffTracker) (x : ℕ)
    (hs : t.commit_line_end.Pairwise (· < ·)) :
    (∀ j, j < find_chunk_index_by_line_num t x → j < t.commit_line_end.length →
        t.commit_line_end.getD j 0 ≤ x) ∧
    (∀ j, find_chunk_index_by_line_num t x ≤ j → j < t.commit_line_end.length →
        x < t.commit_line_end.getD j 0) := by
  have hmono := List.pairwise_iff_getElem.mp hs
  unfold find_chunk_index_by_line_num
  cases h : t.commit_line_end.findIdx? (fun y => y == x) with
  | none =>
      have hne : ∀ y ∈ t.commit_line_end, (y == x) = false :=
        List.findIdx?_eq_none_iff.mp h
      dsimp only
      constructor
      · intro j hjf hjl
        have hb := List.not_of_lt_findIdx hjf
        rw [List.getD_eq_getElem _ _ hjl]
        simpa using hb
      · intro j hfj hjl
        have hflt : t.commit_line_end.findIdx (fun y => decide (x < y)) <
            t.commit_line_end.length := lt_of_le_of_lt hfj hjl
        have hball := @List.findIdx_getElem _ (fun y => decide (x < y))
          t.commit_line_end hflt
        have hxlt : x < t.commit_line_end[t.commit_line_end.findIdx
            (fun y => decide (x < y))] := by simpa using hball
        rw [List.getD_eq_getElem _ _ hjl]
        rcases Nat.lt_or_ge (t.commit_line_end.findIdx (fun y => decide (x < y))) j
          with hlt | hge
        · exact lt_trans hxlt (hmono _ j hflt hjl hlt)
        · have heq : t.commit_line_end.findIdx (fun y => decide (x < y)) = j := by
            omega
          subst heq
          exact hxlt
  | some pos =>
      have hg := @List.findIdx?_eq_guard_findIdx_lt _
        t.commit_line_end (fun y => y == x)
      rw [h] at hg
      have hg' := (Option.guard_eq_some.mp hg.symm)
      obtain ⟨hpos, hflt⟩ := hg'
      have hposlt : pos < t.commit_line_end.length := hpos ▸ hflt
      have hpeq : t.commit_line_end[pos] = x := by
        have hb := @List.findIdx_getElem _ (fun y => y == x)
          t.commit_line_end hflt
        simp only [hpos] at hb
        simpa using hb
      have hres : (if pos + 1 < t.commit_line_end.length then pos + 1
          else t.commit_line_end.length) = pos + 1 := by split <;> omega
      dsimp only
      rw [hres]
      constructor
      · intro j hjp hjl
        rw [List.getD_eq_getElem _ _ hjl]
        rcases Nat.lt_or_ge j pos with hlt | hge
        · have := hmono j pos hjl hposlt hlt
          omega
        · have : j = pos := by omega
          subst this
          rw [hpeq]
      · intro j hpj hjl
        rw [List.getD_eq_getElem _ _ hjl]
        have := hmono pos j hposlt hjl (by omega)
        omega

/-- On a sorted end vector, the run `[get_chunk_start i, end_i)` containing a
line determines `find_chunk_index_by_line_num`. -/
lemma find_chunk_eq (t : FileDiffTracker) (x i : ℕ)
    (hs : t.commit_line_end.Pairwise (· < ·))
    (hi : i < t.commit_line_end.length)
    (hlo : get_chunk_start t i ≤ x)
    (hhi : x < t.commit_line_end.getD i 0) :
    find_chunk_index_by_line_num t x = i := by
  obtain ⟨h1, h2⟩ := find_chunk_spec t x hs
  rcases lt_trichotomy (find_chunk_index_by_line_num t x) i with hlt | heq | hgt
  · exfalso
    have hflt : find_chunk_index_by_line_num t x < t.commit_line_end.length :=
      lt_trans hlt hi
    have hxf := h2 _ le_rfl hflt
    have hi1 : 1 ≤ i := by omega
    have hcs : get_chunk_start t i = t.commit_line_end.getD (i - 1) 0 := by
      unfold get_chunk_start
      rcases i with _ | k
      · omega
      · rfl
    have hle : t.commit_line_end.getD (find_chunk_index_by_line_num t x) 0 ≤
        t.commit_line_end.getD (i - 1) 0 :=
      getD_le_getD_of_sorted _ hs (by omega) (by omega)
    rw [hcs] at hlo
    omega
  · exact heq
  · exfalso
    have := h1 i hgt hi
    omega

lemma getLast?_drop_of_lt (l : List ℕ) (i : ℕ) (hi : i < l.length) :
    (l.drop i).getLast? = l.getLast? := by
  have hne : l.drop i ≠ [] := by
    intro h
    have hlen := List.length_drop i l
    rw [h] at hlen
    simp at hlen
    omega
  conv_rhs => rw [← List.take_append_drop i l]
  rw [List.getLast?_append, List.getLast?_eq_getLast _ hne]
  rfl

lemma delete_lines_case2 (t : FileDiffTracker) (ds n i e c ls : ℕ)
    (hn0 : ¬ n = 0)
    (hf1 : find_chunk_index_by_line_num t ds = i)
    (hf2 : find_chunk_index_by_line_num t (ds + n - 1) = i)
    (hcs : get_chunk_start t i < ds)
    (hget : t.commit_line_end.get? i = some e)
    (hidx : t.commit_indexes.get? i = some (c, ls))
    (hlt : ds + n < e) :
    t.delete_lines ds n = some
      ({ commit_line_end :=
           (t.commit_line_end.take i ++ [ds] ++ t.commit_line_end.drop i).take (i + 1) ++
             ((t.commit_line_end.take i ++ [ds] ++
               t.commit_line_end.drop i).drop (i + 1)).map (· - n),
         commit_indexes := t.commit_indexes.take (i + 1) ++
           [(c, ls + ds + n - get_chunk_start t i)] ++ t.commit_indexes.drop (i + 1) },
       [{ commit_id := c,
          start_and_end := (ls + ds - get_chunk_start t i,
            ls + ds - get_chunk_start t i + n) }]) := by
  unfold FileDiffTracker.delete_lines
  rw [if_neg hn0]
  simp only [hf1, hf2]
  rw [if_pos (⟨trivial, hcs⟩ : True ∧ get_chunk_start t i < ds)]
  rw [hget, Option.map_some']
  simp only [Option.bind_eq_bind, Option.some_bind, decide_eq_true hlt, reduceIte]
  rw [hidx]
  simp only [Option.some_bind, Option.pure_def]

/-- **C8**: deleting `n ≥ 1` lines strictly inside a single run (the run
starts strictly before `delete_start` and ends strictly after
`delete_start + n`) splits the run in two: the first half keeps its
`(commit, line_start)`, the second half carries the same commit with
`line_start_in_commit` advanced by `delete_start + n - run_start`; the
tracker's total line count drops by exactly `n`; and the returned vector is
one `LineDeleteResult` with that run's commit and the half-open span of
length `n` starting at `line_start_in_commit + (delete_start - run_start)`. -/
theorem c8_delete_inside_run_splits
    (t : FileDiffTracker) (ds n i e c ls : ℕ)
    (hinv : TrackerInv t) (hn : 1 ≤ n)
    (he : t.commit_line_end.get? i = some e)
    (hidx : t.commit_indexes.get? i = some (c, ls))
    (hlo : get_chunk_start t i < ds)
    (hhi : ds + n < e) :
    ∃ t' res, t.delete_lines ds n = some (t', res) ∧
      t'.commit_line_end = t.commit_line_end.take i ++
        ds :: (t.commit_line_end.drop i).map (· - n) ∧
      t'.commit_indexes = t.commit_indexes.take (i + 1) ++
        (c, ls + (ds + n - get_chunk_start t i)) ::
          t.commit_indexes.drop (i + 1) ∧
      res = [{ commit_id := c,
               start_and_end := (ls + (ds - get_chunk_start t i),
                 ls + (ds - get_chunk_start t i) + n) }] ∧
      totalLines t' + n = totalLines t := by
  obtain ⟨hlen, hs⟩ := hinv
  rw [List.get?_eq_getElem?] at he
  obtain ⟨hilen, hei⟩ := List.getElem?_eq_some.mp he
  have hgetD : t.commit_line_end.getD i 0 = e := by
    rw [List.getD_eq_getElem _ _ hilen, hei]
  have hf1 : find_chunk_index_by_line_num t ds = i :=
    find_chunk_eq t ds i hs hilen (le_of_lt hlo) (by omega)
  have hf2 : find_chunk_index_by_line_num t (ds + n - 1) = i :=
    find_chunk_eq t (ds + n - 1) i hs hilen (by omega) (by omega)
  have hmain := delete_lines_case2 t ds n i e c ls (by omega) hf1 hf2 hlo
    (by rw [List.get?_eq_getElem?]; exact he) hidx hhi
  have htklen : (t.commit_line_end.take i ++ [ds]).length = i + 1 := by
    rw [List.length_append, List.length_take]
    simp
    omega
  have hE1 : (t.commit_line_end.take i ++ [ds] ++
      t.commit_line_end.drop i).take (i + 1) = t.commit_line_end.take i ++ [ds] :=
    List.take_left' htklen
  have hE2 : (t.commit_line_end.take i ++ [ds] ++
      t.commit_line_end.drop i).drop (i + 1) = t.commit_line_end.drop i :=
    List.drop_left' htklen
  have hdropne : t.commit_line_end.drop i ≠ [] := by
    intro h
    have hlend := List.length_drop i t.commit_line_end
    rw [h] at hlend
    simp at hlend
    omega
  have hEshape : (t.commit_line_end.take i ++ [ds] ++
        t.commit_line_end.drop i).take (i + 1) ++
      ((t.commit_line_end.take i ++ [ds] ++
        t.commit_line_end.drop i).drop (i + 1)).map (· - n) =
      t.commit_line_end.take i ++ ds :: (t.commit_line_end.drop i).map (· - n) := by
    rw [hE1, hE2, List.append_assoc, List.singleton_append]
  refine ⟨_, _, hmain, ?_, ?_, ?_, ?_⟩
  · exact hEshape
  · have harith : ls + ds + n - get_chunk_start t i =
        ls + (ds + n - get_chunk_start t i) := by omega
    dsimp only
    rw [harith, List.append_assoc, List.singleton_append]
  · have harith : ls + ds - get_chunk_start t i = ls + (ds - get_chunk_start t i) := by
      omega
    rw [harith]
  · have hlne : t.commit_line_end ≠ [] := by
      intro h
      rw [h] at hilen
      simp at hilen
    have hlastlast := List.getLast?_eq_getLast _ hlne
    have hlastE : totalLines
        ({ commit_line_end :=
             (t.commit_line_end.take i ++ [ds] ++
               t.commit_line_end.drop i).take (i + 1) ++
               ((t.commit_line_end.take i ++ [ds] ++
                 t.commit_line_end.drop i).drop (i + 1)).map (· - n),
           commit_indexes := t.commit_indexes.take (i + 1) ++
             [(c, ls + ds + n - get_chunk_start t i)] ++
             t.commit_indexes.drop (i + 1) } : FileDiffTracker) =
        t.commit_line_end.getLast hlne - n := by
      unfold totalLines
      dsimp only
      rw [hEshape, List.getLast?_append]
      have hmapne : (t.commit_line_end.drop i).map (· - n) ≠ [] := by
        intro h
        exact hdropne (List.map_eq_nil_iff.mp h)
      have hconseq : (ds :: (t.commit_line_end.drop i).map (· - n)) =
          [ds] ++ (t.commit_line_end.drop i).map (· - n) := rfl
      rw [hconseq, List.getLast?_append, List.getLast?_map,
        getLast?_drop_of_lt _ _ hilen, hlastlast]
      rfl
    rw [hlastE]
    have hele : e ≤ t.commit_line_end.getLast?.getD 0 :=
      le_last_of_sorted _ hs e (hei ▸ List.getElem_mem hilen)
    rw [hlastlast] at hele
    simp only [Option.getD_some] at hele
    unfold totalLines
    rw [hlastlast]
    simp only [Option.getD_some]
    omega

/-- Witness for C8 at a concrete tracker: one 10-line run from commit 7,
deleting 2 lines starting at line 3. -/
theorem c8_witness :
    ∃ t' res, (FileDiffTracker.new 7 10).delete_lines 3 2 = some (t', res) ∧
      t'.commit_line_end = (FileDiffTracker.new 7 10).commit_line_end.take 0 ++
        3 :: ((FileDiffTracker.new 7 10).commit_line_end.drop 0).map (· - 2) ∧
      t'.commit_indexes = (FileDiffTracker.new 7 10).commit_indexes.take 1 ++
        (7, 0 + (3 + 2 - get_chunk_start (FileDiffTracker.new 7 10) 0)) ::
          (FileDiffTracker.new 7 10).commit_indexes.drop 1 ∧
      res = [{ commit_id := 7,
               start_and_end := (0 + (3 - get_chunk_start (FileDiffTracker.new 7 10) 0),
                 0 + (3 - get_chunk_start (FileDiffTracker.new 7 10) 0) + 2) }] ∧
      totalLines t' + 2 = totalLines (FileDiffTracker.new 7 10) :=
  c8_delete_inside_run_splits (FileDiffTracker.new 7 10) 3 2 0 10 7 0
    ⟨rfl, List.pairwise_singleton _ _⟩ (by decide) rfl rfl (by decide) (by decide)

lemma of_mem_take (l : List ℕ) (i x : ℕ) (hx : x ∈ l.take i) :
    ∃ j, j < i ∧ j < l.length ∧ l.getD j 0 = x := by
  rcases List.mem_take_iff_getElem.mp hx with ⟨j, hj, hjx⟩
  have hj1 : j < i := lt_of_lt_of_le hj (min_le_left _ _)
  have hj2 : j < l.length := lt_of_lt_of_le hj (min_le_right _ _)
  exact ⟨j, hj1, hj2, by rw [List.getD_eq_getElem _ _ hj2]; exact hjx⟩

lemma of_mem_drop (l : List ℕ) (i x : ℕ) (hx : x ∈ l.drop i) :
    ∃ j, i ≤ j ∧ j < l.length ∧ l.getD j 0 = x := by
  rcases List.mem_drop_iff_getElem.mp hx with ⟨k, hk, hkx⟩
  exact ⟨i + k, by omega, by omega,
    by rw [List.getD_eq_getElem _ _ (by omega)]; exact hkx⟩

lemma pairwise_parts (A M T : List ℕ) (bd1 bd2 : ℕ)
    (hA : A.Pairwise (· < ·)) (hM : M.Pairwise (· < ·)) (hT : T.Pairwise (· < ·))
    (hAb : ∀ x ∈ A, x ≤ bd1) (hMlo : ∀ x ∈ M, bd1 < x) (hMhi : ∀ x ∈ M, x ≤ bd2)
    (hTlo : ∀ x ∈ T, bd2 < x) (hbd : bd1 ≤ bd2) :
    (A ++ M ++ T).Pairwise (· < ·) := by
  rw [List.append_assoc, List.pairwise_append]
  refine ⟨hA, ?_, ?_⟩
  · rw [List.pairwise_append]
    refine ⟨hM, hT, ?_⟩
    intro a ha b hb
    exact lt_of_le_of_lt (hMhi a ha) (hTlo b hb)
  · intro a ha b hb
    rcases List.mem_append.mp hb with hbM | hbT
    · exact lt_of_le_of_lt (hAb a ha) (hMlo b hbM)
    · exact lt_of_le_of_lt (le_trans (hAb a ha) hbd) (hTlo b hbT)

lemma pairwise_map_add (l : List ℕ) (n : ℕ) (hs : l.Pairwise (· < ·)) :
    (l.map (· + n)).Pairwise (· < ·) := by
  rw [List.pairwise_map]
  exact hs.imp_of_mem (fun _ _ h => by omega)

lemma pairwise_map_sub (l : List ℕ) (n : ℕ) (hs : l.Pairwise (· < ·))
    (hb : ∀ x ∈ l, n ≤ x) : (l.map (· - n)).Pairwise (· < ·) := by
  rw [List.pairwise_map]
  exact hs.imp_of_mem (fun ha _ h => by
    have := hb _ ha
    omega)

lemma get_chunk_start_eq (t : FileDiffTracker) (i : ℕ) :
    get_chunk_start t i =
      if i = 0 then 0 else t.commit_line_end.getD (i - 1) 0 := by
  unfold get_chunk_start
  rcases i with _ | k
  · rfl
  · simp

lemma length_take_of_le {α : Type} (l : List α) (i : ℕ) (h : i ≤ l.length) :
    (l.take i).length = i := by
  rw [List.length_take]
  exact min_eq_left h

/-- `add_lines` preserves the representation invariant. -/
lemma add_lines_inv (t : FileDiffTracker) (ins n : ℕ) (commit : ℕ × ℕ)
    (hinv : TrackerInv t) : TrackerInv (t.add_lines ins n commit) := by
  obtain ⟨hlen, hs⟩ := hinv
  unfold FileDiffTracker.add_lines
  by_cases hn0 : n = 0
  · rw [if_pos hn0]
    exact ⟨hlen, hs⟩
  rw [if_neg hn0]
  dsimp only
  set F := find_chunk_index_by_line_num t ins with hF
  by_cases h1 : F = t.commit_line_end.length
  · rw [if_pos h1]
    constructor
    · simp [hlen]
    · rw [List.pairwise_append]
      refine ⟨hs, List.pairwise_singleton _ _, ?_⟩
      intro a ha b hb
      rcases List.mem_singleton.mp hb with rfl
      have := le_last_of_sorted _ hs a ha
      omega
  · rw [if_neg h1]
    have hFle := find_chunk_le_length t ins
    rw [← hF] at hFle
    have hflt : F < t.commit_line_end.length := lt_of_le_of_ne hFle h1
    obtain ⟨hspec1, hspec2⟩ := find_chunk_spec t ins hs
    rw [← hF] at hspec1 hspec2
    have hinsF : ins < t.commit_line_end.getD F 0 := hspec2 F le_rfl hflt
    have hcsle : get_chunk_start t F ≤ ins := by
      rw [get_chunk_start_eq]
      by_cases hF0 : F = 0
      · rw [if_pos hF0]
        exact Nat.zero_le _
      · rw [if_neg hF0]
        exact hspec1 (F - 1) (by omega) (by omega)
    have htkE : (t.commit_line_end.take F).length = F :=
      length_take_of_le _ _ (le_of_lt hflt)
    have htkI : (t.commit_indexes.take F).length = F :=
      length_take_of_le _ _ (by omega)
    by_cases h2 : get_chunk_start t F = ins
    · rw [if_pos h2]
      constructor
      · simp only [List.length_append, htkE, htkI, List.length_singleton,
          List.length_map, List.length_drop, hlen]
      · rw [h2]
        apply pairwise_parts _ _ _ ins (ins + n)
        · exact List.Pairwise.sublist (List.take_sublist F _) hs
        · exact List.pairwise_singleton _ _
        · exact pairwise_map_add _ n
            (List.Pairwise.sublist (List.drop_sublist F _) hs)
        · intro x hx
          rcases of_mem_take _ _ _ hx with ⟨j, hj1, hj2, hjx⟩
          rw [← hjx]
          exact hspec1 j hj1 hj2
        · intro x hx
          rcases List.mem_singleton.mp hx with rfl
          omega
        · intro x hx
          rcases List.mem_singleton.mp hx with rfl
          exact le_rfl
        · intro x hx
          rcases List.mem_map.mp hx with ⟨y, hy, hyx⟩
          rcases of_mem_drop _ _ _ hy with ⟨j, hj1, hj2, hjy⟩
          have := hspec2 j hj1 hj2
          omega
        · omega
    · rw [if_neg h2]
      have hcslt : get_chunk_start t F < ins := lt_of_le_of_ne hcsle h2
      have htkI1 : (t.commit_indexes.take (F + 1)).length = F + 1 :=
        length_take_of_le _ _ (by omega)
      constructor
      · simp only [List.length_append, List.length_cons, List.length_singleton,
          List.length_nil, List.length_map, List.length_drop, hlen, htkE, htkI1]
      · apply pairwise_parts _ _ _ (get_chunk_start t F)
          (t.commit_line_end.getD F 0 + n)
        · exact List.Pairwise.sublist (List.take_sublist F _) hs
        · refine List.Pairwise.cons ?_ (List.Pairwise.cons ?_
            (List.pairwise_singleton _ _))
          · intro b hb
            rcases List.mem_cons.mp hb with rfl | hb
            · omega
            · rcases List.mem_singleton.mp hb with rfl
              omega
          · intro b hb
            rcases List.mem_singleton.mp hb with rfl
            omega
        · exact pairwise_map_add _ n
            (List.Pairwise.sublist (List.drop_sublist (F + 1) _) hs)
        · intro x hx
          rcases of_mem_take _ _ _ hx with ⟨j, hj1, hj2, hjx⟩
          rw [← hjx, get_chunk_start_eq]
          have hF0 : ¬ F = 0 := by omega
          rw [if_neg hF0]
          exact getD_le_getD_of_sorted _ hs (by omega) (by omega)
        · intro x hx
          rcases List.mem_cons.mp hx with rfl | hx
          · omega
          · rcases List.mem_cons.mp hx with rfl | hx
            · omega
            · rcases List.mem_singleton.mp hx with rfl
              omega
        · intro x hx
          rcases List.mem_cons.mp hx with rfl | hx
          · omega
          · rcases List.mem_cons.mp hx with rfl | hx
            · omega
            · rcases List.mem_singleton.mp hx with rfl
              exact le_rfl
        · intro x hx
          rcases List.mem_map.mp hx with ⟨y, hy, hyx⟩
          rcases of_mem_drop _ _ _ hy with ⟨j, hj1, hj2, hjy⟩
          have := getD_lt_getD_of_sorted _ hs (show F < j by omega) hj2
          omega
        · omega

lemma mid_take_small {α : Type} (A T : List α) (v : α) (k : ℕ) (hk : A.length = k) :
    ((A ++ [v]) ++ T).take k = A := by
  rw [List.append_assoc]
  exact List.take_left' hk

lemma mid_take_big {α : Type} (A T : List α) (v : α) (k : ℕ) (hk : A.length + 1 = k) :
    ((A ++ [v]) ++ T).take k = A ++ [v] :=
  List.take_left' (by simpa using hk)

lemma mid_drop {α : Type} (A T : List α) (v : α) (k : ℕ) (hk : A.length + 1 ≤ k) :
    ((A ++ [v]) ++ T).drop k = T.drop (k - A.length - 1) := by
  have h : k = (A ++ [v]).length + (k - A.length - 1) := by
    simp only [List.length_append, List.length_singleton]
    omega
  conv_lhs => rw [h]
  rw [List.drop_append]

lemma map_sub_drop (l : List ℕ) (n i j : ℕ) :
    ((l.drop i).map (· - n)).drop j = (l.drop (i + j)).map (· - n) := by
  rw [← List.map_drop, List.drop_drop]

lemma mem_take_le_chunk_start (t : FileDiffTracker)
    (hs : t.commit_line_end.Pairwise (· < ·)) (i : ℕ)
    (hi : i ≤ t.commit_line_end.length) :
    ∀ x ∈ t.commit_line_end.take i, x ≤ get_chunk_start t i := by
  intro x hx
  rcases of_mem_take _ _ _ hx with ⟨j, hj1, hj2, hjx⟩
  rw [get_chunk_start_eq]
  by_cases h0 : i = 0
  · omega
  · rw [if_neg h0, ← hjx]
    exact getD_le_getD_of_sorted _ hs (by omega) (by omega)

lemma delete_general_inv (t : FileDiffTracker) (ds n : ℕ) (t' : FileDiffTracker)
    (res : List LineDeleteResult)
    (hlen : t.commit_line_end.length = t.commit_indexes.length)
    (hs : t.commit_line_end.Pairwise (· < ·)) (hn0 : ¬ n = 0)
    (hgen : delete_lines_general t ds n (find_chunk_index_by_line_num t ds)
      (find_chunk_index_by_line_num t (ds + n - 1)) = some (t', res)) :
    TrackerInv t' := by
  set dsi := find_chunk_index_by_line_num t ds with hdsi
  set dei := find_chunk_index_by_line_num t (ds + n - 1) with hdei
  unfold delete_lines_general at hgen
  simp only [Option.bind_eq_bind] at hgen
  rcases Option.bind_eq_some.mp hgen with ⟨rs, hrs, hgen1⟩
  clear hgen
  rcases Option.bind_eq_some.mp hgen1 with ⟨e_dsi, heds, hgen2⟩
  clear hgen1
  rcases Option.bind_eq_some.mp hgen2 with ⟨e_dei, hede, hgen3⟩
  clear hgen2
  rcases Option.bind_eq_some.mp hgen3 with ⟨pdei, hpdei, hgen4⟩
  clear hgen3
  simp only [Option.pure_def, Option.some.injEq, Prod.mk.injEq] at hgen4
  obtain ⟨ht', hres⟩ := hgen4
  subst ht'
  -- index bounds and values
  rw [List.get?_eq_getElem?] at heds hede
  obtain ⟨hdsi_lt, heds'⟩ := List.getElem?_eq_some.mp heds
  obtain ⟨hdei_lt, hede'⟩ := List.getElem?_eq_some.mp hede
  rw [List.get?_eq_getElem?] at hpdei
  obtain ⟨hdei_ilt, _hpd⟩ := List.getElem?_eq_some.mp hpdei
  have hgetDs : t.commit_line_end.getD dsi 0 = e_dsi := by
    rw [List.getD_eq_getElem _ _ hdsi_lt, heds']
  have hgetDe : t.commit_line_end.getD dei 0 = e_dei := by
    rw [List.getD_eq_getElem _ _ hdei_lt, hede']
  obtain ⟨hA1, hA2⟩ := find_chunk_spec t ds hs
  rw [← hdsi] at hA1 hA2
  obtain ⟨hB1, hB2⟩ := find_chunk_spec t (ds + n - 1) hs
  rw [← hdei] at hB1 hB2
  have hds_lt : ds < e_dsi := by
    have := hA2 dsi le_rfl hdsi_lt
    omega
  have hdsn_le : ds + n ≤ e_dei := by
    have := hB2 dei le_rfl hdei_lt
    omega
  have hdsidei : dsi ≤ dei := by
    by_contra hc
    have h1 := hA1 dei (by omega) hdei_lt
    have h2 := hB2 dei le_rfl hdei_lt
    omega
  have hcs_le : get_chunk_start t dsi ≤ ds := by
    rw [get_chunk_start_eq]
    by_cases h0 : dsi = 0
    · rw [if_pos h0]
      exact Nat.zero_le _
    · rw [if_neg h0]
      exact hA1 (dsi - 1) (by omega) (by omega)
  have he_le : e_dsi ≤ e_dei := by
    have := getD_le_getD_of_sorted _ hs hdsidei hdei_lt
    omega
  have hmulti : dsi < dei → e_dsi ≤ ds + n - 1 := by
    intro h
    have := hB1 dsi h hdsi_lt
    omega
  have heq_e : dsi = dei → e_dsi = e_dei := by
    intro h
    rw [h] at hgetDs
    omega
  set v1 := e_dsi - (min e_dsi (ds + n) - ds) with hv1e
  have hv1d : (v1 = ds ∧ e_dsi ≤ ds + n) ∨ (v1 = e_dsi - n ∧ ds + n < e_dsi) := by
    by_cases hm : e_dsi ≤ ds + n
    · left
      refine ⟨?_, hm⟩
      rw [hv1e, min_eq_left hm]
      omega
    · right
      refine ⟨?_, by omega⟩
      rw [hv1e, min_eq_right (by omega)]
      omega
  -- the rewritten middle state
  have hsetshape : t.commit_line_end.set dsi v1 =
      t.commit_line_end.take dsi ++ v1 :: t.commit_line_end.drop (dsi + 1) := by
    rw [List.set_eq_take_append_cons_drop, if_pos hdsi_lt]
  have htklen : (t.commit_line_end.take dsi).length = dsi :=
    length_take_of_le _ _ (le_of_lt hdsi_lt)
  have htakeE2 : (t.commit_line_end.set dsi v1).take (dsi + 1) =
      t.commit_line_end.take dsi ++ [v1] := by
    rw [hsetshape, List.append_cons]
    exact List.take_left' (by simp [htklen])
  have hdropE2 : (t.commit_line_end.set dsi v1).drop (dsi + 1) =
      t.commit_line_end.drop (dsi + 1) := by
    rw [hsetshape, List.append_cons]
    exact List.drop_left' (by simp [htklen])
  rw [htakeE2, hdropE2]
  set I1 := (if ds ≤ get_chunk_start t dei then
      t.commit_indexes.set dei (pdei.1, pdei.2 + (ds + n - get_chunk_start t dei))
    else t.commit_indexes) with hI1
  have hI1len : I1.length = t.commit_indexes.length := by
    rw [hI1]
    split
    · simp
    · rfl
  have hApair : (t.commit_line_end.take dsi).Pairwise (· < ·) :=
    List.Pairwise.sublist (List.take_sublist _ _) hs
  have hAb : ∀ x ∈ t.commit_line_end.take dsi, x ≤ get_chunk_start t dsi :=
    mem_take_le_chunk_start t hs dsi (le_of_lt hdsi_lt)
  have hTb : ∀ y ∈ t.commit_line_end.drop (dei + 1), n ≤ y := by
    intro y hy
    rcases of_mem_drop _ _ _ hy with ⟨j, hj1, hj2, hjy⟩
    have := getD_lt_getD_of_sorted _ hs (show dei < j by omega) hj2
    omega
  have hTpair : ((t.commit_line_end.drop (dei + 1)).map (· - n)).Pairwise (· < ·) :=
    pairwise_map_sub _ n (List.Pairwise.sublist (List.drop_sublist _ _) hs) hTb
  have hTlo : ∀ x ∈ (t.commit_line_end.drop (dei + 1)).map (· - n), e_dei - n < x := by
    intro x hx
    rcases List.mem_map.mp hx with ⟨y, hy, hyx⟩
    rcases of_mem_drop _ _ _ hy with ⟨j, hj1, hj2, hjy⟩
    have := getD_lt_getD_of_sorted _ hs (show dei < j by omega) hj2
    omega
  have hv1le : v1 ≤ e_dei - n := by
    rcases hv1d with ⟨h1, h2⟩ | ⟨h1, h2⟩ <;> omega
  have hbd : get_chunk_start t dsi ≤ e_dei - n := by omega
  have hdropcons : t.commit_line_end.drop dei =
      e_dei :: t.commit_line_end.drop (dei + 1) := by
    rw [List.drop_eq_getElem_cons hdei_lt, hede']
  refine ⟨?_, ?_⟩
  · -- equal lengths
    dsimp only
    by_cases hpp : (if e_dsi - get_chunk_start t dsi ≤ n ∧ get_chunk_start t dsi = ds
        then dsi else dsi + 1) ≤ (if e_dei = ds + n then dei else dei - 1)
    · rw [if_pos hpp, if_pos hpp]
      simp only [List.length_append, List.length_take, List.length_drop,
        List.length_map, List.length_singleton, htklen, hI1len, hlen]
      omega
    · rw [if_neg hpp, if_neg hpp]
      simp only [List.length_append, List.length_take, List.length_drop,
        List.length_map, List.length_singleton, htklen, hI1len, hlen]
      omega
  · -- sortedness of the new end vector
    dsimp only
    by_cases hsds : e_dsi - get_chunk_start t dsi ≤ n ∧ get_chunk_start t dsi = ds
    · have h1 : (if e_dsi - get_chunk_start t dsi ≤ n ∧ get_chunk_start t dsi = ds
          then dsi else dsi + 1) = dsi := if_pos hsds
      rw [h1]
      by_cases hsde : e_dei = ds + n
      · have h2 : (if e_dei = ds + n then dei else dei - 1) = dei := if_pos hsde
        rw [h2, if_pos hdsidei]
        rw [mid_take_small _ _ _ _ htklen]
        rw [mid_drop _ _ _ _ (by rw [htklen]; omega), htklen]
        rw [map_sub_drop,
          show dsi + 1 + (dei + 1 - dsi - 1) = dei + 1 from by omega]
        have hp := pairwise_parts (t.commit_line_end.take dsi) []
          ((t.commit_line_end.drop (dei + 1)).map (· - n))
          (get_chunk_start t dsi) (e_dei - n) hApair (List.Pairwise.nil)
          hTpair hAb (by intro x hx; simp at hx) (by intro x hx; simp at hx)
          hTlo hbd
        simpa using hp
      · have h2 : (if e_dei = ds + n then dei else dei - 1) = dei - 1 :=
          if_neg hsde
        have hlt2 : dsi < dei := by
          rcases Nat.lt_or_ge dsi dei with h | h
          · exact h
          · exfalso
            have heq : dsi = dei := by omega
            have := heq_e heq
            omega
        rw [h2, if_pos (by omega)]
        rw [mid_take_small _ _ _ _ htklen]
        rw [show dei - 1 + 1 = dei from by omega]
        rw [mid_drop _ _ _ _ (by rw [htklen]; omega), htklen]
        rw [map_sub_drop,
          show dsi + 1 + (dei - dsi - 1) = dei from by omega]
        rw [hdropcons, List.map_cons]
        have hform : t.commit_line_end.take dsi ++
            (e_dei - n) :: (t.commit_line_end.drop (dei + 1)).map (· - n) =
            t.commit_line_end.take dsi ++ [e_dei - n] ++
              (t.commit_line_end.drop (dei + 1)).map (· - n) := by
          simp
        rw [hform]
        refine pairwise_parts _ _ _ (get_chunk_start t dsi) (e_dei - n)
          hApair (List.pairwise_singleton _ _) hTpair hAb ?_ ?_ hTlo hbd
        · intro x hx
          rcases List.mem_singleton.mp hx with rfl
          omega
        · intro x hx
          rcases List.mem_singleton.mp hx with rfl
          exact le_rfl
    · have h1 : (if e_dsi - get_chunk_start t dsi ≤ n ∧ get_chunk_start t dsi = ds
          then dsi else dsi + 1) = dsi + 1 := if_neg hsds
      rw [h1]
      have hv1gt : get_chunk_start t dsi < v1 := by
        rcases hv1d with ⟨h1', h2'⟩ | ⟨h1', h2'⟩
        · by_cases hcs : get_chunk_start t dsi = ds
          · exact absurd ⟨by omega, hcs⟩ hsds
          · omega
        · omega
      by_cases hsde : e_dei = ds + n
      · have h2 : (if e_dei = ds + n then dei else dei - 1) = dei := if_pos hsde
        rw [h2]
        by_cases heq : dsi = dei
        · rw [if_neg (by omega)]
          have hD : (t.commit_line_end.drop (dsi + 1)).map (· - n) =
              (t.commit_line_end.drop (dei + 1)).map (· - n) := by rw [heq]
          rw [hD]
          refine pairwise_parts _ _ _ (get_chunk_start t dsi) (e_dei - n)
            hApair (List.pairwise_singleton _ _) hTpair hAb ?_ ?_ hTlo hbd
          · intro x hx
            rcases List.mem_singleton.mp hx with rfl
            omega
          · intro x hx
            rcases List.mem_singleton.mp hx with rfl
            exact hv1le
        · rw [if_pos (by omega)]
          rw [mid_take_big _ _ _ _ (by rw [htklen])]
          rw [mid_drop _ _ _ _ (by rw [htklen]; omega), htklen]
          rw [map_sub_drop,
            show dsi + 1 + (dei + 1 - dsi - 1) = dei + 1 from by omega]
          refine pairwise_parts _ _ _ (get_chunk_start t dsi) (e_dei - n)
            hApair (List.pairwise_singleton _ _) hTpair hAb ?_ ?_ hTlo hbd
          · intro x hx
            rcases List.mem_singleton.mp hx with rfl
            omega
          · intro x hx
            rcases List.mem_singleton.mp hx with rfl
            exact hv1le
      · have h2 : (if e_dei = ds + n then dei else dei - 1) = dei - 1 :=
          if_neg hsde
        rw [h2]
        have he_gt : ds + n < e_dei := by omega
        by_cases hpp : dsi + 1 ≤ dei - 1
        · rw [if_pos hpp]
          rw [mid_take_big _ _ _ _ (by rw [htklen])]
          rw [show dei - 1 + 1 = dei from by omega]
          rw [mid_drop _ _ _ _ (by rw [htklen]; omega), htklen]
          rw [map_sub_drop,
            show dsi + 1 + (dei - dsi - 1) = dei from by omega]
          rw [hdropcons, List.map_cons]
          have hv1ds : v1 = ds := by
            have := hmulti (by omega)
            rcases hv1d with ⟨h1', h2'⟩ | ⟨h1', h2'⟩ <;> omega
          have hform : t.commit_line_end.take dsi ++ [v1] ++
              (e_dei - n) :: (t.commit_line_end.drop (dei + 1)).map (· - n) =
              t.commit_line_end.take dsi ++ [v1, e_dei - n] ++
                (t.commit_line_end.drop (dei + 1)).map (· - n) := by
            simp
          rw [hform]
          refine pairwise_parts _ _ _ (get_chunk_start t dsi) (e_dei - n)
            hApair ?_ hTpair hAb ?_ ?_ hTlo hbd
          · refine List.Pairwise.cons ?_ (List.pairwise_singleton _ _)
            intro b hb
            rcases List.mem_singleton.mp hb with rfl
            omega
          · intro x hx
            rcases List.mem_cons.mp hx with rfl | hx
            · omega
            · rcases List.mem_singleton.mp hx with rfl
              omega
          · intro x hx
            rcases List.mem_cons.mp hx with rfl | hx
            · exact hv1le
            · rcases List.mem_singleton.mp hx with rfl
              exact le_rfl
        · rw [if_neg hpp]
          by_cases heq : dsi = dei
          · have hD : (t.commit_line_end.drop (dsi + 1)).map (· - n) =
                (t.commit_line_end.drop (dei + 1)).map (· - n) := by rw [heq]
            rw [hD]
            refine pairwise_parts _ _ _ (get_chunk_start t dsi) (e_dei - n)
              hApair (List.pairwise_singleton _ _) hTpair hAb ?_ ?_ hTlo hbd
            · intro x hx
              rcases List.mem_singleton.mp hx with rfl
              omega
            · intro x hx
              rcases List.mem_singleton.mp hx with rfl
              exact hv1le
          · have hsucc : dei = dsi + 1 := by omega
            have hD : t.commit_line_end.drop (dsi + 1) =
                e_dei :: t.commit_line_end.drop (dei + 1) := by
              rw [hsucc] at hdropcons ⊢
              exact hdropcons
            rw [hD, List.map_cons]
            have hv1ds : v1 = ds := by
              have := hmulti (by omega)
              rcases hv1d with ⟨h1', h2'⟩ | ⟨h1', h2'⟩ <;> omega
            have hform : t.commit_line_end.take dsi ++ [v1] ++
                (e_dei - n) :: (t.commit_line_end.drop (dei + 1)).map (· - n) =
                t.commit_line_end.take dsi ++ [v1, e_dei - n] ++
                  (t.commit_line_end.drop (dei + 1)).map (· - n) := by
              simp
            rw [hform]
            refine pairwise_parts _ _ _ (get_chunk_start t dsi) (e_dei - n)
              hApair ?_ hTpair hAb ?_ ?_ hTlo hbd
            · refine List.Pairwise.cons ?_ (List.pairwise_singleton _ _)
              intro b hb
              rcases List.mem_singleton.mp hb with rfl
              omega
            · intro x hx
              rcases List.mem_cons.mp hx with rfl | hx
              · omega
              · rcases List.mem_singleton.mp hx with rfl
                omega
            · intro x hx
              rcases List.mem_cons.mp hx with rfl | hx
              · exact hv1le
              · rcases List.mem_singleton.mp hx with rfl
                exact le_rfl

/-- `delete_lines` preserves the representation invariant whenever it
returns (i.e. whenever the Rust code does not panic). -/
lemma delete_lines_inv (t : FileDiffTracker) (ds n : ℕ) (t' : FileDiffTracker)
    (res : List LineDeleteResult) (hinv : TrackerInv t)
    (hdel : t.delete_lines ds n = some (t', res)) : TrackerInv t' := by
  obtain ⟨hlen, hs⟩ := hinv
  unfold FileDiffTracker.delete_lines at hdel
  by_cases hn0 : n = 0
  · rw [if_pos hn0] at hdel
    simp only [Option.some.injEq, Prod.mk.injEq] at hdel
    obtain ⟨h1, h2⟩ := hdel
    rw [← h1]
    exact ⟨hlen, hs⟩
  rw [if_neg hn0] at hdel
  by_cases hcond : find_chunk_index_by_line_num t ds =
      find_chunk_index_by_line_num t (ds + n - 1) ∧
      get_chunk_start t (find_chunk_index_by_line_num t ds) < ds
  · rw [if_pos hcond] at hdel
    cases hget : t.commit_line_end.get? (find_chunk_index_by_line_num t ds) with
    | none =>
        rw [hget] at hdel
        simp at hdel
    | some e =>
        rw [hget, Option.map_some'] at hdel
        simp only [Option.bind_eq_bind, Option.some_bind] at hdel
        by_cases hlt : ds + n < e
        · rw [decide_eq_true hlt] at hdel
          simp only [reduceIte] at hdel
          cases hidx : t.commit_indexes.get?
              (find_chunk_index_by_line_num t ds) with
          | none =>
              rw [hidx] at hdel
              simp at hdel
          | some p =>
              rw [hidx] at hdel
              simp only [Option.some_bind, Option.pure_def, Option.some.injEq,
                Prod.mk.injEq] at hdel
              obtain ⟨ht', hres⟩ := hdel
              subst ht'
              set F := find_chunk_index_by_line_num t ds with hF
              rw [List.get?_eq_getElem?] at hget
              obtain ⟨hFlt, hFe⟩ := List.getElem?_eq_some.mp hget
              have hgetD : t.commit_line_end.getD F 0 = e := by
                rw [List.getD_eq_getElem _ _ hFlt, hFe]
              have htklen : (t.commit_line_end.take F).length = F :=
                length_take_of_le _ _ (le_of_lt hFlt)
              have htake : (t.commit_line_end.take F ++ [ds] ++
                  t.commit_line_end.drop F).take (F + 1) =
                  t.commit_line_end.take F ++ [ds] :=
                List.take_left' (by simp [htklen])
              have hdrop : (t.commit_line_end.take F ++ [ds] ++
                  t.commit_line_end.drop F).drop (F + 1) =
                  t.commit_line_end.drop F :=
                List.drop_left' (by simp [htklen])
              rw [htake, hdrop]
              refine ⟨?_, ?_⟩
              · dsimp only
                simp only [List.length_append, List.length_take,
                  List.length_drop, List.length_map, List.length_singleton,
                  htklen, hlen]
                omega
              · dsimp only
                refine pairwise_parts _ _ _ (get_chunk_start t F) ds
                  (List.Pairwise.sublist (List.take_sublist _ _) hs)
                  (List.pairwise_singleton _ _)
                  ?_ (mem_take_le_chunk_start t hs F (le_of_lt hFlt)) ?_ ?_ ?_
                  (le_of_lt hcond.2)
                · refine pairwise_map_sub _ n
                    (List.Pairwise.sublist (List.drop_sublist _ _) hs) ?_
                  intro y hy
                  rcases of_mem_drop _ _ _ hy with ⟨j, hj1, hj2, hjy⟩
                  have := getD_le_getD_of_sorted _ hs hj1 hj2
                  omega
                · intro x hx
                  rcases List.mem_singleton.mp hx with rfl
                  exact hcond.2
                · intro x hx
                  rcases List.mem_singleton.mp hx with rfl
                  exact le_rfl
                · intro x hx
                  rcases List.mem_map.mp hx with ⟨y, hy, hyx⟩
                  rcases of_mem_drop _ _ _ hy with ⟨j, hj1, hj2, hjy⟩
                  have := getD_le_getD_of_sorted _ hs hj1 hj2
                  omega
        · rw [decide_eq_false hlt, if_neg Bool.false_ne_true] at hdel
          exact delete_general_inv t ds n t' res hlen hs hn0 hdel
  · rw [if_neg hcond] at hdel
    simp only [Option.bind_eq_bind, Option.pure_def, Option.some_bind,
      reduceIte] at hdel
    exact delete_general_inv t ds n t' res hlen hs hn0 hdel

/-- States reachable from `FileDiffTracker::new` by `add_lines` calls and by
`delete_lines` calls that return normally (a `delete_lines` call whose index
arithmetic would panic produces no successor state). -/
inductive TrackerReachable : FileDiffTracker → Prop
  | base (c total : ℕ) : TrackerReachable (FileDiffTracker.new c total)
  | add (t : FileDiffTracker) (ins n : ℕ) (commit : ℕ × ℕ) :
      TrackerReachable t → TrackerReachable (t.add_lines ins n commit)
  | del (t t' : FileDiffTracker) (ds n : ℕ) (res : List LineDeleteResult) :
      TrackerReachable t → t.delete_lines ds n = some (t', res) →
      TrackerReachable t'

/-- **C10**: every `FileDiffTracker` operation preserves the representation
invariant -- `commit_line_end` and `commit_indexes` have equal length and
`commit_line_end` is strictly increasing -- and the invariant holds in every
state reachable from `new` by any sequence of `add_lines`/`delete_lines`
calls. -/
theorem c10_tracker_invariant :
    (∀ c total, TrackerInv (FileDiffTracker.new c total)) ∧
    (∀ t ins n commit, TrackerInv t →
      TrackerInv (FileDiffTracker.add_lines t ins n commit)) ∧
    (∀ t ds n t' res, TrackerInv t →
      FileDiffTracker.delete_lines t ds n = some (t', res) → TrackerInv t') ∧
    (∀ t, TrackerReachable t → TrackerInv t) := by
  have hnew : ∀ c total, TrackerInv (FileDiffTracker.new c total) :=
    fun _ _ => ⟨rfl, List.pairwise_singleton _ _⟩
  refine ⟨hnew, fun t ins n commit h => add_lines_inv t ins n commit h,
    fun t ds n t' res h hdel => delete_lines_inv t ds n t' res h hdel, ?_⟩
  intro t hreach
  induction hreach with
  | base c total => exact hnew c total
  | add t ins n commit _ ih => exact add_lines_inv t ins n commit ih
  | del t t' ds n res _ hdel ih => exact delete_lines_inv t ds n t' res ih hdel

/-- Witness for C10: the delete-preservation conjunct applied to the concrete
tracker `new 0 5` and the call `delete_lines 1 2` (which splits the single
run), with the invariant of the source state and the concrete result both
computed. -/
theorem c10_witness :
    TrackerInv
      ({ commit_line_end := [1, 3],
         commit_indexes := [(0, 0), (0, 3)] } : FileDiffTracker) :=
  c10_tracker_invariant.2.2.1 (FileDiffTracker.new 0 5) 1 2
    { commit_line_end := [1, 3], commit_indexes := [(0, 0), (0, 3)] }
    [{ commit_id := 0, start_and_end := (1, 3) }]
    ⟨rfl, List.pairwise_singleton _ _⟩ (by decide)
